import Mathlib

/-!
# OpenRPT: the Code 3-of-9 barcode renderer

A shallow embedding of `OpenRPT/renderer/3of9.cpp` (the symbol table
`_3of9codes`, `codeIndex` and `render3of9`) together with the properties of
the renderer that the specification states, of the engine-name checks and the
table build of `OpenRPT/bldtbls/bldtbls.cpp`, and of the string encodings of
`common/xvariant.cpp`.

Conventions of the embedding.

* A `QChar` is its UTF-16 code unit, a natural number (there is no separate
  type for it); a `QString` is the list of its code units.
* The C++ type `int` is 32 bits wide.  Its values are embedded in `Int`, and
  every `int` operation of the renderer reduces its exact result modulo 2^32
  into the range of `int` (`int32`), so a sum or product that leaves the range
  wraps around as it does on the machine.
* A `QPainter *` is an `Option QPainter`; `none` is the null pointer.  A painter
  records every call it receives, in order, so that the rectangles drawn by a
  call of `render3of9` can be read off its final state.
* Qt library calls (`QChar::upper`, `QChar::toAscii`, the `const char *` view
  of a `QString`, `QString::sprintf`, the painter operations) are not part of
  the repository; each one is a small definition that states the documented
  behaviour of the call.
-/

namespace OpenRPT

/-! ## Characters and strings -/

/-- A `QString`: the sequence of its UTF-16 code units.  A single `QChar` is a
code unit, a `Nat`. -/
abbrev QString := List Nat

/-- The call `QChar::upper()` of the Qt library: the simple uppercase mapping of
Unicode.  It is written out for the Latin-1 range and for the two further code
units whose uppercase is a 7-bit letter (U+0131 dotless i and U+017F long s);
the uppercase of every other code unit lies outside Latin-1, where `codeIndex`
cannot tell it from the unit itself, and such a unit is returned unchanged. -/
def upper (c : Nat) : Nat :=
  if 0x61 ≤ c ∧ c ≤ 0x7a then c - 0x20
  else if c = 0xb5 then 0x39c
  else if 0xe0 ≤ c ∧ c ≤ 0xfe ∧ c ≠ 0xf7 then c - 0x20
  else if c = 0xff then 0x178
  else if c = 0x131 then 0x49
  else if c = 0x17f then 0x53
  else c

/-- The call `QChar::toAscii()` of the Qt library: the 8-bit value of a Latin-1
character, and 0 for a character outside Latin-1. -/
def toAscii (c : Nat) : Nat :=
  if c > 0xff then 0 else c

/-! ## The symbol table -/

/-- One row of the symbol table: `struct code3of9`. -/
structure code3of9 where
  code : Nat
  values : List Int
  deriving DecidableEq, Repr

/-- The table `_3of9codes`, the terminating NUL row included. -/
def _3of9codes : List code3of9 := [
  ⟨0x30, [0, 0, 0, 1, 1, 0, 1, 0, 0]⟩,  -- '0'
  ⟨0x31, [1, 0, 0, 1, 0, 0, 0, 0, 1]⟩,  -- '1'
  ⟨0x32, [0, 0, 1, 1, 0, 0, 0, 0, 1]⟩,  -- '2'
  ⟨0x33, [1, 0, 1, 1, 0, 0, 0, 0, 0]⟩,  -- '3'
  ⟨0x34, [0, 0, 0, 1, 1, 0, 0, 0, 1]⟩,  -- '4'
  ⟨0x35, [1, 0, 0, 1, 1, 0, 0, 0, 0]⟩,  -- '5'
  ⟨0x36, [0, 0, 1, 1, 1, 0, 0, 0, 0]⟩,  -- '6'
  ⟨0x37, [0, 0, 0, 1, 0, 0, 1, 0, 1]⟩,  -- '7'
  ⟨0x38, [1, 0, 0, 1, 0, 0, 1, 0, 0]⟩,  -- '8'
  ⟨0x39, [0, 0, 1, 1, 0, 0, 1, 0, 0]⟩,  -- '9'
  ⟨0x41, [1, 0, 0, 0, 0, 1, 0, 0, 1]⟩,  -- 'A'
  ⟨0x42, [0, 0, 1, 0, 0, 1, 0, 0, 1]⟩,  -- 'B'
  ⟨0x43, [1, 0, 1, 0, 0, 1, 0, 0, 0]⟩,  -- 'C'
  ⟨0x44, [0, 0, 0, 0, 1, 1, 0, 0, 1]⟩,  -- 'D'
  ⟨0x45, [1, 0, 0, 0, 1, 1, 0, 0, 0]⟩,  -- 'E'
  ⟨0x46, [0, 0, 1, 0, 1, 1, 0, 0, 0]⟩,  -- 'F'
  ⟨0x47, [0, 0, 0, 0, 0, 1, 1, 0, 1]⟩,  -- 'G'
  ⟨0x48, [1, 0, 0, 0, 0, 1, 1, 0, 0]⟩,  -- 'H'
  ⟨0x49, [0, 0, 1, 0, 0, 1, 1, 0, 0]⟩,  -- 'I'
  ⟨0x4a, [0, 0, 0, 0, 1, 1, 1, 0, 0]⟩,  -- 'J'
  ⟨0x4b, [1, 0, 0, 0, 0, 0, 0, 1, 1]⟩,  -- 'K'
  ⟨0x4c, [0, 0, 1, 0, 0, 0, 0, 1, 1]⟩,  -- 'L'
  ⟨0x4d, [1, 0, 1, 0, 0, 0, 0, 1, 0]⟩,  -- 'M'
  ⟨0x4e, [0, 0, 0, 0, 1, 0, 0, 1, 1]⟩,  -- 'N'
  ⟨0x4f, [1, 0, 0, 0, 1, 0, 0, 1, 0]⟩,  -- 'O'
  ⟨0x50, [0, 0, 1, 0, 1, 0, 0, 1, 0]⟩,  -- 'P'
  ⟨0x51, [0, 0, 0, 0, 0, 0, 1, 1, 1]⟩,  -- 'Q'
  ⟨0x52, [1, 0, 0, 0, 0, 0, 1, 1, 0]⟩,  -- 'R'
  ⟨0x53, [0, 0, 1, 0, 0, 0, 1, 1, 0]⟩,  -- 'S'
  ⟨0x54, [0, 0, 0, 0, 1, 0, 1, 1, 0]⟩,  -- 'T'
  ⟨0x55, [1, 1, 0, 0, 0, 0, 0, 0, 1]⟩,  -- 'U'
  ⟨0x56, [0, 1, 1, 0, 0, 0, 0, 0, 1]⟩,  -- 'V'
  ⟨0x57, [1, 1, 1, 0, 0, 0, 0, 0, 0]⟩,  -- 'W'
  ⟨0x58, [0, 1, 0, 0, 1, 0, 0, 0, 1]⟩,  -- 'X'
  ⟨0x59, [1, 1, 0, 0, 1, 0, 0, 0, 0]⟩,  -- 'Y'
  ⟨0x5a, [0, 1, 1, 0, 1, 0, 0, 0, 0]⟩,  -- 'Z'
  ⟨0x2d, [0, 1, 0, 0, 0, 0, 1, 0, 1]⟩,  -- '-'
  ⟨0x2e, [1, 1, 0, 0, 0, 0, 1, 0, 0]⟩,  -- '.'
  ⟨0x20, [0, 1, 1, 0, 0, 0, 1, 0, 0]⟩,  -- ' '
  ⟨0x24, [0, 1, 0, 1, 0, 1, 0, 0, 0]⟩,  -- '$'
  ⟨0x2f, [0, 1, 0, 1, 0, 0, 0, 1, 0]⟩,  -- '/'
  ⟨0x2b, [0, 1, 0, 0, 0, 1, 0, 1, 0]⟩,  -- '+'
  ⟨0x25, [0, 0, 0, 1, 0, 1, 0, 1, 0]⟩,  -- '%'
  ⟨0x2a, [0, 1, 0, 0, 1, 0, 1, 0, 0]⟩,  -- '*', the start/stop character
  ⟨0x00, [0, 0, 0, 0, 0, 0, 0, 0, 0]⟩]  -- NUL, the terminator of the list

/-- The scan of `codeIndex`: `rows` is the part of the table from index `idx`
on.  The scan stops with -1 at the NUL row and returns the index of the first
row whose key is `ascii`. -/
def codeIndexFrom (ascii : Nat) : List code3of9 → Int → Int
  | [], _ => -1
  | row :: rows, idx =>
    if row.code = 0 then -1
    else if row.code = ascii then idx
    else codeIndexFrom ascii rows (idx + 1)

/-- The function `codeIndex`: uppercase the character, then scan the table for
its 8-bit value. -/
def codeIndex (code : Nat) : Int :=
  let code := upper code
  codeIndexFrom (toAscii code) _3of9codes 0

/-- The row `_3of9codes[idx]`. -/
def codeRow (idx : Int) : code3of9 :=
  _3of9codes.getD idx.toNat ⟨0, []⟩

/-- The 44 characters the specification lists as supported: the digits, the
capital letters, `- . space $ / + %` and the sentinel `*`. -/
def supportedKeys : List Nat :=
  "0123456789ABCDEFGHIJKLMNOPQRSTUVWXYZ-. $/+%*".toList.map Char.toNat

/-! ## Rectangles and the painter -/

/-- A `QRect`, by the four accessors `render3of9` reads. -/
structure QRect where
  left : Int
  top : Int
  width : Int
  height : Int
  deriving DecidableEq, Repr

/-- A `QPen`: colour, width and line style. -/
structure QPen where
  color : Nat
  width : Nat
  style : Nat
  deriving DecidableEq, Repr

/-- A `QBrush`: colour and fill pattern. -/
structure QBrush where
  color : Nat
  style : Nat
  deriving DecidableEq, Repr

/-- A call received by a painter. -/
inductive PaintOp where
  | save
  | setPen (color : Nat)
  | setBrush (color : Nat)
  | drawRect (x y w h : Int)
  | restore
  deriving DecidableEq, Repr

/-- The state of a `QPainter` that `render3of9` can observe or change: the
current pen and brush, the stack of saved states, and the calls received so
far, oldest first. -/
structure QPainter where
  pen : QPen
  brush : QBrush
  saved : List (QPen × QBrush)
  calls : List PaintOp
  deriving DecidableEq, Repr

/-- The call `QPainter::save()`: push the current state. -/
def QPainter.save (p : QPainter) : QPainter :=
  { p with saved := (p.pen, p.brush) :: p.saved, calls := p.calls ++ [PaintOp.save] }

/-- The call `QPainter::restore()`: pop the state pushed last; with nothing
saved the state is left as it is. -/
def QPainter.restore (p : QPainter) : QPainter :=
  match p.saved with
  | [] => { p with calls := p.calls ++ [PaintOp.restore] }
  | (pen, brush) :: rest =>
    { pen := pen, brush := brush, saved := rest, calls := p.calls ++ [PaintOp.restore] }

/-- The call `QPainter::setPen(const QColor &)`: a solid pen of width 0 in the
given colour. -/
def QPainter.setPen (p : QPainter) (color : Nat) : QPainter :=
  { p with pen := ⟨color, 0, 1⟩, calls := p.calls ++ [PaintOp.setPen color] }

/-- The call `QPainter::setBrush` on a colour: a solid brush in that colour. -/
def QPainter.setBrush (p : QPainter) (color : Nat) : QPainter :=
  { p with brush := ⟨color, 1⟩, calls := p.calls ++ [PaintOp.setBrush color] }

/-- The call `QPainter::drawRect(x, y, w, h)`. -/
def QPainter.drawRect (p : QPainter) (x y w h : Int) : QPainter :=
  { p with calls := p.calls ++ [PaintOp.drawRect x y w h] }

/-! ## The text handed to the drawing loop

Line 151 builds the wrapped text with `QString().sprintf("*%s*", (const char*)str)`:
the value is first viewed as a C string and then substituted for `%s`. -/

/-- One character of the 8-bit view of a `QString`: a character outside
Latin-1 becomes a question mark. -/
def toLatin1 (c : Nat) : Nat :=
  if c > 0xff then 0x3f else c

/-- The cast `(const char*)str`: the 8-bit view of the string, read as a C
string, which ends at the first NUL. -/
def toCString (s : QString) : List Nat :=
  (s.map toLatin1).takeWhile (fun b => b != 0)

/-- The text `QString::sprintf` substitutes for `%s`: the bytes decoded as
UTF-8.  Bytes below 0x80 decode to themselves; what the library makes of
other byte strings (multi-byte and malformed sequences) differs between Qt
releases and is left to the decoder `dec`. -/
def fromUtf8 (dec : List Nat → QString) (bytes : List Nat) : QString :=
  if bytes.all (fun b => decide (b < 0x80)) then bytes else dec bytes

/-- The assignment `str = QString().sprintf("*%s*", (const char*)str)`. -/
def wrapped (dec : List Nat → QString) (str : QString) : QString :=
  0x2a :: (fromUtf8 dec (toCString str) ++ [0x2a])

/-! ## The type `int` -/

/-- The value of type `int` (32 bits, two's complement) that an operation with
the exact result `x` yields: `x` reduced modulo 2^32 into the range of `int`. -/
def int32 (x : Int) : Int :=
  (x + 2147483648) % 4294967296 - 2147483648

/-- A number that the type `int` holds: from -2^31 to 2^31 - 1. -/
def inInt (x : Int) : Prop :=
  -2147483648 ≤ x ∧ x ≤ 2147483647

instance (x : Int) : Decidable (inInt x) :=
  inferInstanceAs (Decidable (-2147483648 ≤ x ∧ x ≤ 2147483647))

/-- The sum `a + b` of two `int`. -/
def iadd (a b : Int) : Int :=
  int32 (a + b)

/-- The difference `a - b` of two `int`. -/
def isub (a b : Int) : Int :=
  int32 (a - b)

/-- The product `a * b` of two `int`. -/
def imul (a b : Int) : Int :=
  int32 (a * b)

/-- The quotient `a / b` of two `int`, which C++ truncates towards zero. -/
def idiv (a b : Int) : Int :=
  int32 (a.tdiv b)

/-! ## The renderer -/

/-- The local `narrow_bar`: a narrow bar is 1 pixel wide. -/
def narrow_bar : Int := 1

/-- The local `interchange_gap`: the space between two characters. -/
def interchange_gap : Int := narrow_bar

/-- The local `bar_width_mult`: the width of a wide bar in narrow bars. -/
def bar_width_mult : Int := 2

/-- The assignment to `L` (line 129) in its locals `C`, `N`, `X` and `I`. -/
def symbolLength (C N X I : Int) : Int :=
  iadd (imul (imul (iadd C 2) (iadd (imul 3 N) 6)) X) (imul (iadd C 1) I)

/-- The length `L` that `render3of9` computes for a value. -/
def plannedLength (str : QString) : Int :=
  let val_length : Int := int32 str.length
  symbolLength val_length bar_width_mult narrow_bar interchange_gap

/-- The final value of the local `quiet_zone` (lines 106 to 145). -/
def quietZone (draw_width L align : Int) : Int :=
  let quiet_zone := imul narrow_bar 10
  let quiet_zone := if quiet_zone < 10 then 10 else quiet_zone
  if align = 1 then
    let nqz := idiv (isub draw_width L) 2
    if nqz > quiet_zone then nqz else quiet_zone
  else if align > 1 then
    isub draw_width (iadd L quiet_zone)
  else
    quiet_zone

/-- The initial value of `pos` (line 147): where the first bar starts. -/
def startPos (r : QRect) (str : QString) (align : Int) : Int :=
  iadd r.left (quietZone r.width (plannedLength str) align)

/-- The width `w` of one pattern element (line 169): a wide element (value 1)
is `narrow_bar * bar_width_mult` pixels, a narrow one `narrow_bar`. -/
def barWidth (v : Int) : Int :=
  if v = 1 then imul narrow_bar bar_width_mult else narrow_bar

/-- The loop over the elements of one pattern (lines 167 to 174): `values` is
the part of the pattern still to do, `space` the flag of the loop.  Every row
of the table has nine elements, so walking the list is the loop `b = 0 .. 8`. -/
def drawBars (top draw_height : Int) :
    List Int → Bool → Int → Option QPainter → Int × Option QPainter
  | [], _, pos, pPainter => (pos, pPainter)
  | v :: values, space, pos, pPainter =>
    let w := barWidth v
    let pPainter :=
      if !space then pPainter.map (fun p => p.drawRect pos top w draw_height)
      else pPainter
    drawBars top draw_height values (!space) (iadd pos w) pPainter

/-- The loop over the characters of the wrapped text (lines 159 to 176). -/
def drawChars (top draw_height : Int) :
    QString → Int → Option QPainter → Int × Option QPainter
  | [], pos, pPainter => (pos, pPainter)
  | c :: str, pos, pPainter =>
    let idx := codeIndex c
    if idx = -1 then
      drawChars top draw_height str pos pPainter
    else
      let done := drawBars top draw_height (codeRow idx).values false pos pPainter
      drawChars top draw_height str (iadd done.1 interchange_gap) done.2

/-- The function `render3of9`.  The result is the final value of `pos`
together with the painter after the call.  The argument `dec` stands for the
library's decoding of `%s` text that is not 7-bit (see `fromUtf8`); it plays no
part for a value of 7-bit characters. -/
def render3of9 (dec : List Nat → QString) (r : QRect) (_str : QString) (align : Int)
    (pPainter : Option QPainter) : Int × Option QPainter :=
  let pos := startPos r _str align
  let top := r.top
  let str := wrapped dec _str
  let pPainter := pPainter.map (fun p =>
    let p := p.save
    let p := p.setPen p.pen.color
    p.setBrush p.pen.color)
  let done := drawChars top r.height str pos pPainter
  (done.1, done.2.map QPainter.restore)

/-! ## What a call draws -/

/-- A rectangle handed to `drawRect`. -/
structure Bar where
  x : Int
  y : Int
  w : Int
  h : Int
  deriving DecidableEq, Repr

/-- The rectangles among a sequence of painter calls, in order. -/
def rectangles : List PaintOp → List Bar
  | [] => []
  | PaintOp.drawRect x y w h :: ops => ⟨x, y, w, h⟩ :: rectangles ops
  | _ :: ops => rectangles ops

/-- The calls a painter `q` has received since it was in state `p`. -/
def callsSince (p q : QPainter) : List PaintOp :=
  q.calls.drop p.calls.length

/-- The rectangles `render3of9` draws on the painter `p`, in order. -/
def drawn (dec : List Nat → QString) (r : QRect) (str : QString) (align : Int)
    (p : QPainter) : List Bar :=
  match (render3of9 dec r str align (some p)).2 with
  | some q => rectangles (callsSince p q)
  | none => []

/-! ## The reference the specification describes -/

/-- Whether a character resolves in the table. -/
def resolves (c : Nat) : Bool :=
  codeIndex c != -1

/-- The pattern of a character that resolves. -/
def pattern (c : Nat) : List Int :=
  (codeRow (codeIndex c)).values

/-- The width the specification gives an element with the fixed constants: 2
pixels if it is wide, 1 if it is narrow. -/
def elementWidth (v : Int) : Int :=
  if v = 1 then 2 else 1

/-- The five rectangles of one character whose first element starts at `x0`:
one for each bar element `b` in 0, 2, 4, 6, 8, at `x0` plus the widths of the
elements before `b`; the space elements 1, 3, 5, 7 only take up their width. -/
def charBars (r : QRect) (x0 : Int) (values : List Int) : List Bar :=
  [0, 2, 4, 6, 8].map (fun b =>
    ⟨x0 + ((values.take b).map elementWidth).sum, r.top,
     elementWidth (values.getD b 0), r.height⟩)

/-- The reference sequence of rectangles for a text: the `j`-th character that
resolves contributes its five rectangles from `startX + 13 * j`. -/
def referenceBars (r : QRect) (startX : Int) (text : QString) : List Bar :=
  ((text.filter resolves).enum).flatMap (fun jc =>
    charBars r (startX + 13 * (jc.1 : Int)) (pattern jc.2))

/-- The five rectangles of the sentinel `*`, pattern 0,1,0,0,1,0,1,0,0, for a
character that starts at `x0`. -/
def starBars (r : QRect) (x0 : Int) : List Bar :=
  [⟨x0 + 0, r.top, 1, r.height⟩, ⟨x0 + 3, r.top, 1, r.height⟩, ⟨x0 + 5, r.top, 2, r.height⟩,
   ⟨x0 + 8, r.top, 2, r.height⟩, ⟨x0 + 11, r.top, 1, r.height⟩]

/-- A value without NUL and without a character from U+0080 to U+00FF: the
8-bit view of such a value is 7-bit text of the same length. -/
def plainValue (str : QString) : Prop :=
  ∀ c ∈ str, c ≠ 0 ∧ ¬(0x80 ≤ c ∧ c ≤ 0xff)

instance (str : QString) : Decidable (plainValue str) :=
  inferInstanceAs (Decidable (∀ c ∈ str, c ≠ 0 ∧ ¬(0x80 ≤ c ∧ c ≤ 0xff)))

/-- A value without NUL, without a character from U+0080 to U+00FF, and
without the two characters above U+00FF that `codeIndex` resolves, U+0131 and
U+017F. -/
def exactValue (str : QString) : Prop :=
  ∀ c ∈ str, c ≠ 0 ∧ ¬(0x80 ≤ c ∧ c ≤ 0xff) ∧ c ≠ 0x131 ∧ c ≠ 0x17f

instance (str : QString) : Decidable (exactValue str) :=
  inferInstanceAs
    (Decidable (∀ c ∈ str, c ≠ 0 ∧ ¬(0x80 ≤ c ∧ c ≤ 0xff) ∧ c ≠ 0x131 ∧ c ≠ 0x17f))

/-- A value all of whose characters are 7-bit and none of which is NUL. -/
def sevenBit (str : QString) : Prop :=
  ∀ c ∈ str, 0 < c ∧ c < 0x80

instance (str : QString) : Decidable (sevenBit str) :=
  inferInstanceAs (Decidable (∀ c ∈ str, 0 < c ∧ c < 0x80))

/-- The characters the specification calls supported: the 44 keys, and the
letters in lower case too, the lookup being case-insensitive. -/
def supported (c : Nat) : Prop :=
  c ∈ supportedKeys ∨ (0x61 ≤ c ∧ c ≤ 0x7a)

instance (c : Nat) : Decidable (supported c) :=
  inferInstanceAs (Decidable (c ∈ supportedKeys ∨ (0x61 ≤ c ∧ c ≤ 0x7a)))

/-- The number of characters of a value that are not supported. -/
def unsupportedCount (str : QString) : Nat :=
  (str.filter (fun c => !decide (supported c))).length

/-- The right edge of a rectangle: `x + width`. -/
def Bar.right (b : Bar) : Int :=
  b.x + b.w

/-- A rectangle moved horizontally by `d` and given the top and the height of
the rectangle `r`. -/
def Bar.moved (r : QRect) (d : Int) (b : Bar) : Bar :=
  ⟨b.x + d, r.top, b.w, r.height⟩

/-- Two rectangles drawn one after the other with at least one pixel between
the right edge of the first and the left edge of the second. -/
def separated (a b : Bar) : Prop :=
  a.x + a.w + 1 ≤ b.x

/-- A rectangle to evaluate examples on: left 0, top 0, width 100, height 20. -/
def sampleRect : QRect :=
  ⟨0, 0, 100, 20⟩

/-! ## Auxiliary definitions of the proofs -/

/-- The rectangles of a text, character by character: the form in which the
drawing loop produces the reference. -/
def barsFrom (r : QRect) : Int → QString → List Bar
  | _, [] => []
  | x0, c :: cs =>
    if resolves c then charBars r x0 (pattern c) ++ barsFrom r (x0 + 13) cs
    else barsFrom r x0 cs

/-- The number of characters of a text that resolve. -/
def resolvedCount (text : QString) : Nat :=
  (text.filter resolves).length

/-- The cursor of a call stays in the range of `int`: from the start position
it advances 13 pixels for each character drawn, the two sentinels included,
and the position it reaches does not exceed 2^31 - 1. -/
def cursorFits (dec : List Nat → QString) (r : QRect) (str : QString) (align : Int) : Prop :=
  startPos r str align + 13 * (resolvedCount (wrapped dec str) : Int) ≤ 2147483647

instance (dec : List Nat → QString) (r : QRect) (str : QString) (align : Int) :
    Decidable (cursorFits dec r str align) :=
  inferInstanceAs
    (Decidable (startPos r str align + 13 * (resolvedCount (wrapped dec str) : Int)
      ≤ 2147483647))

/-- A rectangle with its `x` reduced to 32 bits. -/
def Bar.reduced (b : Bar) : Bar :=
  ⟨int32 b.x, b.y, b.w, b.h⟩

/-- A rectangle close to the upper end of the range of `int`: left 2147483635. -/
def farRect : QRect :=
  ⟨2147483635, 0, 100, 20⟩

/-- A rectangle whose left edge, width and right edge `left + width` are
values of `int`. -/
def rectFits (r : QRect) : Prop :=
  inInt r.left ∧ inInt r.width ∧ inInt (r.left + r.width)

instance (r : QRect) : Decidable (rectFits r) :=
  inferInstanceAs (Decidable (inInt r.left ∧ inInt r.width ∧ inInt (r.left + r.width)))

/-- A rectangle that ends beyond the range of `int`: left 2147483640, width
100. -/
def farWideRect : QRect :=
  ⟨2147483640, 0, 100, 20⟩

/-- A decoder that yields no more characters that resolve than it reads bytes,
as a decoder of UTF-8 does: each character that resolves takes at least one
byte of the input. -/
def boundedDecoder (dec : List Nat → QString) : Prop :=
  ∀ bytes : List Nat, resolvedCount (dec bytes) ≤ bytes.length

/-- The offsets and widths of the five bars of a pattern, from the start of
the character. -/
def barShape (values : List Int) : List (Int × Int) :=
  [0, 2, 4, 6, 8].map (fun b =>
    (((values.take b).map elementWidth).sum, elementWidth (values.getD b 0)))

/-- A painter after some more calls that leave pen, brush and stack alone. -/
def QPainter.addCalls (p : QPainter) (ops : List PaintOp) : QPainter :=
  { p with calls := p.calls ++ ops }

/-- The call that draws a rectangle. -/
def Bar.toOp (b : Bar) : PaintOp :=
  PaintOp.drawRect b.x b.y b.w b.h

/-- A painter to evaluate examples on. -/
def samplePainter : QPainter :=
  ⟨⟨7, 3, 2⟩, ⟨9, 0⟩, [], []⟩

/-- A decoder to evaluate examples with: it reads each byte as one character. -/
def sampleDecoder : List Nat → QString :=
  fun bytes => bytes

/-! ## The table builder `bldtbls.cpp` -/

/-- A string literal of the source as a `QString`. -/
def lit (s : String) : QString :=
  s.toList.map Char.toNat

/-- The function `isValidProtocol`. -/
def isValidProtocol (protocol : QString) (allowOdbc : Bool) : Bool :=
  if protocol = lit "odbc" then
    if allowOdbc then true else false
  else if (lit "pgsql" = protocol ∨ lit "psql" = protocol) ∨
      lit "db2" = protocol ∨
      lit "ibase" = protocol ∨
      lit "mysql" = protocol ∨
      lit "oracle" = protocol ∨
      lit "sqlite" = protocol ∨
      lit "sqlite2" = protocol ∨
      lit "sybase" = protocol then
    true
  else
    false

/-- The function `odbcSanityCheck`, on the driver name of the connection
(`db.driverName()`) and the engine name `dbServer`.  The result is the value
returned together with `dbServer` after the call, which is passed by
reference. -/
def odbcSanityCheck (driverName : QString) (dbServer : QString) : Bool × QString :=
  if driverName = lit "QODBC" then
    if lit "odbc" = dbServer then (false, lit "QODBC")
    else if lit "pgsql" = dbServer ∨ lit "psql" = dbServer then (true, lit "QPSQL")
    else if lit "db2" = dbServer then (true, lit "QDB2")
    else if lit "ibase" = dbServer then (true, lit "QIBASE")
    else if lit "mysql" = dbServer then (true, lit "QMYSQL")
    else if lit "oracle" = dbServer then (true, lit "QOCI")
    else if lit "sqlite" = dbServer then (true, lit "QSQLITE")
    else if lit "sqlite2" = dbServer then (true, lit "QSQLITE2")
    else if lit "sybase" = dbServer then (true, lit "QTDS")
    else (false, dbServer)
  else
    (true, dbServer)

/-- The return code `EXIT_SUCCESS`. -/
def EXIT_SUCCESS : Nat := 0

/-- The return code `EXIT_ERROR_DB_TABLE_BUILD`. -/
def EXIT_ERROR_DB_TABLE_BUILD : Nat := 4

/-- The function `execTableBuild`: it returns the value of `qry.exec(qryStr)`.
The database is the function `exec`, its answer to a statement; the messages
written to `out` are left out. -/
def execTableBuild (exec : QString → Bool) (qryStr : QString) : Bool :=
  let result := exec qryStr
  result

/-- The function `buildTable`, on the driver name of the connection and the
engine name `dbServer`.  The result is the value returned together with the
values of the calls of `execTableBuild` made, of which there is at most one;
the messages written to `out` are left out. -/
def buildTable (exec : QString → Bool) (driverName dbServer : QString) : Bool × List Bool :=
  let result := false
  let part1 := lit "CREATE TABLE report ( "
  let part3 := lit "  report_name TEXT, " ++ lit "  report_descrip TEXT NOT NULL, " ++
    lit "  report_grade INTEGER NOT NULL DEFAULT 0, " ++ lit "  report_source TEXT " ++ lit ");"
  if driverName = lit "QODBC" then
    let checked := odbcSanityCheck driverName dbServer
    if !checked.1 then
      (result, [])
    else
      let dbServer := checked.2
      if dbServer = lit "QPSQL" then
        let part2 := lit "  report_id SERIAL PRIMARY KEY, "
        let qryStr := part1 ++ part2 ++ part3
        (result, [execTableBuild exec qryStr])
      else if dbServer = lit "QDB2" then (result, [])
      else if dbServer = lit "QIBASE" then (result, [])
      else if dbServer = lit "QMYSQL" then
        let part2 := lit "  report_id integer AUTO_INCREMENT PRIMARY KEY, "
        let qryStr := part1 ++ part2 ++ part3
        (result, [execTableBuild exec qryStr])
      else if dbServer = lit "QOCI" then (result, [])
      else if dbServer = lit "QSQLITE" then (result, [])
      else if dbServer = lit "QSQLITE2" then (result, [])
      else if dbServer = lit "QTDS" then (result, [])
      else (result, [])
  else if driverName = lit "QPSQL" then
    let part2 := lit "  report_id SERIAL PRIMARY KEY, "
    let qryStr := part1 ++ part2 ++ part3
    (result, [execTableBuild exec qryStr])
  else if driverName = lit "QDB2" then (result, [])
  else if driverName = lit "QIBASE" then (result, [])
  else if driverName = lit "QMYSQL" then
    let part2 := lit "  report_id integer AUTO_INCREMENT PRIMARY KEY, "
    let qryStr := part1 ++ part2 ++ part3
    (result, [execTableBuild exec qryStr])
  else if driverName = lit "QOCI" then (result, [])
  else if driverName = lit "QSQLITE" then (result, [])
  else if driverName = lit "QSQLITE2" then (result, [])
  else if driverName = lit "QTDS" then (result, [])
  else (result, [])

/-- The end of `main` once the connection is open (lines 151 to 175): the
program exits with `EXIT_ERROR_DB_TABLE_BUILD` if `buildTable` returns false
and returns `EXIT_SUCCESS` otherwise. -/
def tableBuildExit (exec : QString → Bool) (driverName dbServer : QString) : Nat :=
  if !(buildTable exec driverName dbServer).1 then EXIT_ERROR_DB_TABLE_BUILD
  else EXIT_SUCCESS

/-- A database that carries out every statement. -/
def sampleDatabase : QString → Bool :=
  fun _ => true

/-! ## The string encodings of `common/xvariant.cpp` -/

/-- The constant `amper`. -/
def amper : Nat := 0x26

/-- The constant `quote`. -/
def quote : Nat := 0x22

/-- The constant `comma`. -/
def comma : Nat := 0x2c

/-- The scan of `QString::replace`: the text is read from left to right; at an
occurrence of `before` the text `after` is put out and the scan goes on behind
the occurrence, so that occurrences are taken leftmost first, do not overlap,
and text put out is not read again.  The counter says how many characters of
the occurrence just found are still to be passed over. -/
def replaceFrom (before after : QString) : Nat → QString → QString
  | _, [] => []
  | skip + 1, _ :: cs => replaceFrom before after skip cs
  | 0, c :: cs =>
    if before.isPrefixOf (c :: cs) then
      after ++ replaceFrom before after (before.length - 1) cs
    else
      c :: replaceFrom before after 0 cs

/-- The call `str.replace(before, after)` of the Qt library for a text `before`
that is not empty, as in all its uses here; a single `QChar` to replace is the
text of that one character.  (With an empty `before` the model leaves the
string as it is.) -/
def replaceAll (str before after : QString) : QString :=
  if before = [] then str else replaceFrom before after 0 str

/-- The function `encodeString`. -/
def encodeString (data : QString) : QString :=
  let str := data
  let str := replaceAll str [amper] (lit "&amp;")
  let str := replaceAll str [quote] (lit "&quot;")
  str

/-- The function `decodeString`. -/
def decodeString (data : QString) : QString :=
  let str := data
  let str := replaceAll str (lit "&quot;") [quote]
  let str := replaceAll str (lit "&amp;") [amper]
  str

/-- The call `QChar::isSpace()` of the Qt library: the characters 9 to 13 and
the separators of Unicode. -/
def isSpace (c : Nat) : Bool :=
  (9 ≤ c && c ≤ 13) || c == 0x20 || c == 0xa0 || c == 0x1680 ||
    (0x2000 ≤ c && c ≤ 0x200a) || c == 0x2028 || c == 0x2029 || c == 0x202f ||
    c == 0x205f || c == 0x3000

/-- The call `QString::stripWhiteSpace()`: the string without the white space
at its start and at its end. -/
def stripWhiteSpace (s : QString) : QString :=
  ((s.dropWhile isSpace).reverse.dropWhile isSpace).reverse

/-- The call `QString::mid(index, len)`: at most `len` characters from position
`index` on. -/
def mid (s : QString) (index len : Nat) : QString :=
  (s.drop index).take len

/-- The function `stringListToString`. -/
def stringListToString (list : List QString) : QString :=
  list.foldl (fun str it =>
    let str := if !str.isEmpty then str ++ [comma] else str
    let str := str ++ [quote]
    let str := str ++ encodeString it
    str ++ [quote]) []

/-- The loop of `decomposeList`: `rest` is the part of `str` from position `pos`
on, so its head is `str[pos]`.  The result is the final value of `start` and
the list built. -/
def decomposeLoop (str : QString) :
    QString → Nat → Bool → Nat → List QString → Nat × List QString
  | [], _, _, start, list => (start, list)
  | c :: rest, pos, in_string, start, list =>
    if in_string then
      if quote = c then decomposeLoop str rest (pos + 1) false start list
      else decomposeLoop str rest (pos + 1) true start list
    else
      if quote = c then decomposeLoop str rest (pos + 1) true start list
      else if comma = c then
        let s := mid str start (pos - start)
        decomposeLoop str rest (pos + 1) false (pos + 1) (list ++ [stripWhiteSpace s])
      else decomposeLoop str rest (pos + 1) false start list

/-- The function `decomposeList`. -/
def decomposeList (str : QString) : List QString :=
  let done := decomposeLoop str str 0 false 0 []
  let start := done.1
  let list := done.2
  if start < str.length then
    let s := mid str start (str.length - start)
    list ++ [stripWhiteSpace s]
  else
    list

/-- The call `s.constref(i)`: the character at position `i`, the null character
where the string has none. -/
def constref (s : QString) (i : Nat) : Nat :=
  s.getD i 0

/-- The function `stringToStringList`. -/
def stringToStringList (str : QString) : List QString :=
  let tList := decomposeList str
  tList.map (fun it =>
    let s := it
    if quote = constref s 0 ∧ quote = constref s (s.length - 1) then
      decodeString (mid s 1 (s.length - 2))
    else s)

/-- What `encodeString` makes of one character. -/
def encodeChar (c : Nat) : QString :=
  if c = amper then lit "&amp;" else if c = quote then lit "&quot;" else [c]

/-- What `encodeString` makes of one character by its first replacement, which
`decodeString` undoes last. -/
def encodeAmper (c : Nat) : QString :=
  if c = amper then lit "&amp;" else [c]

/-- An element of a string list as `stringListToString` writes it: between
quotes and encoded. -/
def quoted (it : QString) : QString :=
  quote :: (encodeString it ++ [quote])

/-- The end of `decomposeList`: the last piece is added if the string goes on
behind `start`. -/
def lastPiece (str : QString) (done : Nat × List QString) : List QString :=
  if done.1 < str.length then
    done.2 ++ [stripWhiteSpace (mid str done.1 (str.length - done.1))]
  else
    done.2

/-! ## The symbol table and `codeIndex` -/

theorem toAscii_lt (c : Nat) : toAscii c < 256 := by
  unfold toAscii
  split_ifs <;> omega

theorem toAscii_of_le {c : Nat} (h : c ≤ 0xff) : toAscii c = c := by
  unfold toAscii
  split_ifs <;> omega

theorem toAscii_of_gt {c : Nat} (h : 0xff < c) : toAscii c = 0 := by
  unfold toAscii
  split_ifs <;> omega

theorem upper_fixed {d : Nat} (h1 : ¬(0x61 ≤ d ∧ d ≤ 0x7a)) (h2 : d ≠ 0xb5)
    (h3 : ¬(0xe0 ≤ d ∧ d ≤ 0xfe ∧ d ≠ 0xf7)) (h4 : d ≠ 0xff) (h5 : d ≠ 0x131)
    (h6 : d ≠ 0x17f) : upper d = d := by
  unfold upper
  rw [if_neg h1, if_neg h2, if_neg h3, if_neg h4, if_neg h5, if_neg h6]

theorem upper_upper (c : Nat) : upper (upper c) = upper c := by
  by_cases h1 : 0x61 ≤ c ∧ c ≤ 0x7a
  · have e : upper c = c - 0x20 := by unfold upper; rw [if_pos h1]
    rw [e]; apply upper_fixed <;> omega
  by_cases h2 : c = 0xb5
  · have e : upper c = 0x39c := by unfold upper; rw [if_neg h1, if_pos h2]
    rw [e]; apply upper_fixed <;> omega
  by_cases h3 : 0xe0 ≤ c ∧ c ≤ 0xfe ∧ c ≠ 0xf7
  · have e : upper c = c - 0x20 := by unfold upper; rw [if_neg h1, if_neg h2, if_pos h3]
    rw [e]; apply upper_fixed <;> omega
  by_cases h4 : c = 0xff
  · have e : upper c = 0x178 := by unfold upper; rw [if_neg h1, if_neg h2, if_neg h3, if_pos h4]
    rw [e]; apply upper_fixed <;> omega
  by_cases h5 : c = 0x131
  · have e : upper c = 0x49 := by
      unfold upper; rw [if_neg h1, if_neg h2, if_neg h3, if_neg h4, if_pos h5]
    rw [e]; apply upper_fixed <;> omega
  by_cases h6 : c = 0x17f
  · have e : upper c = 0x53 := by
      unfold upper; rw [if_neg h1, if_neg h2, if_neg h3, if_neg h4, if_neg h5, if_pos h6]
    rw [e]; apply upper_fixed <;> omega
  have e := upper_fixed h1 h2 h3 h4 h5 h6
  rw [e, e]

set_option maxRecDepth 100000 in
/-- What the scan returns for each 8-bit value: an index below 44 with that key
for the 44 supported keys, -1 for every other value; and a row that is found
has nine elements of total width 12. -/
theorem scan_facts : ∀ a < 256,
    (a ∈ supportedKeys →
      0 ≤ codeIndexFrom a _3of9codes 0 ∧ codeIndexFrom a _3of9codes 0 ≤ 43 ∧
        (codeRow (codeIndexFrom a _3of9codes 0)).code = a) ∧
    (a ∉ supportedKeys → codeIndexFrom a _3of9codes 0 = -1) ∧
    (codeIndexFrom a _3of9codes 0 ≠ -1 →
      (codeRow (codeIndexFrom a _3of9codes 0)).values.length = 9 ∧
      ((codeRow (codeIndexFrom a _3of9codes 0)).values.map barWidth).sum = 12) := by
  decide

theorem supportedKeys_lt : ∀ k ∈ supportedKeys, k < 128 ∧ 0 < k := by
  decide

theorem codeIndex_eq (c : Nat) : codeIndex c = codeIndexFrom (toAscii (upper c)) _3of9codes 0 :=
  rfl

theorem codeIndex_of_mem {c : Nat} (h : upper c ∈ supportedKeys) :
    0 ≤ codeIndex c ∧ codeIndex c ≤ 43 ∧ (codeRow (codeIndex c)).code = upper c := by
  have hlt : upper c ≤ 0xff := by have := (supportedKeys_lt _ h).1; omega
  have h1 := (scan_facts (toAscii (upper c)) (toAscii_lt _)).1
  rw [toAscii_of_le hlt] at h1
  rw [codeIndex_eq, toAscii_of_le hlt]
  exact h1 h

theorem codeIndex_of_not_mem {c : Nat} (h : upper c ∉ supportedKeys) : codeIndex c = -1 := by
  rw [codeIndex_eq]
  by_cases hlt : upper c ≤ 0xff
  · have h1 := (scan_facts (toAscii (upper c)) (toAscii_lt _)).2.1
    rw [toAscii_of_le hlt] at h1 ⊢
    exact h1 h
  · rw [toAscii_of_gt (by omega)]
    decide

theorem codeIndex_ne_iff (c : Nat) : codeIndex c ≠ -1 ↔ upper c ∈ supportedKeys := by
  constructor
  · intro h
    by_contra hn
    exact h (codeIndex_of_not_mem hn)
  · intro h hn
    have := (codeIndex_of_mem h).1
    omega

/-- C2.  For every character `c`: `codeIndex c` is an index from 0 to 43 whose
table key is the uppercased `c` exactly when the uppercased `c` is one of the 44
supported keys, and it is -1 for every other character; it is never 44, the
index of the NUL terminator; the digit `0` resolves to index 0 and the sentinel
`*` to index 43. -/
theorem codeIndex_spec (c : Nat) :
    (upper c ∈ supportedKeys ↔
      (0 ≤ codeIndex c ∧ codeIndex c ≤ 43 ∧ (codeRow (codeIndex c)).code = upper c)) ∧
    (upper c ∉ supportedKeys ↔ codeIndex c = -1) ∧
    codeIndex c ≠ 44 ∧
    supportedKeys.length = 44 ∧
    codeIndex 0x30 = 0 ∧ codeIndex 0x2a = 43 ∧ (codeRow 44).code = 0 := by
  refine ⟨⟨codeIndex_of_mem, ?_⟩, ⟨codeIndex_of_not_mem, ?_⟩, ?_, by decide, by decide,
    by decide, by decide⟩
  · intro h
    exact (codeIndex_ne_iff c).1 (by omega)
  · intro h hm
    have := (codeIndex_of_mem hm).1
    omega
  · by_cases hm : upper c ∈ supportedKeys
    · have := (codeIndex_of_mem hm).2.1
      omega
    · rw [codeIndex_of_not_mem hm]
      decide

/-- C3.  The lookup is case-insensitive: `codeIndex c = codeIndex (upper c)` for
every character, and each of the 26 lowercase letters resolves to the index of
its capital, for instance `a` to that of `A`. -/
theorem codeIndex_case_insensitive :
    (∀ c : Nat, codeIndex c = codeIndex (upper c)) ∧
    (∀ k : Fin 26, codeIndex (0x61 + k.val) = codeIndex (0x41 + k.val) ∧
      codeIndex (0x61 + k.val) ≠ -1 ∧ upper (0x61 + k.val) = 0x41 + k.val) ∧
    codeIndex 0x61 = codeIndex 0x41 := by
  refine ⟨fun c => ?_, by decide, by decide⟩
  rw [codeIndex_eq, codeIndex_eq, upper_upper]

/-- C4.  The table has 45 rows, the last of which is the NUL terminator; each
of the 44 rows before it has a key other than NUL and exactly nine elements,
each 0 or 1, three of them wide (1) and six narrow (0), so that a character is
12 pixels wide with the fixed constants. -/
theorem table_rows :
    _3of9codes.length = 45 ∧ (codeRow 44).code = 0 ∧
    ∀ i : Fin 44,
      (codeRow i.val).code ≠ 0 ∧
      (codeRow i.val).values.length = 9 ∧
      (∀ v ∈ (codeRow i.val).values, v = 0 ∨ v = 1) ∧
      (codeRow i.val).values.count 1 = 3 ∧
      (codeRow i.val).values.count 0 = 6 ∧
      ((codeRow i.val).values.map barWidth).sum = 12 ∧
      (3 * bar_width_mult + 6) * narrow_bar = 12 := by
  decide

/-! ## The arithmetic of `int` -/

theorem int32_of_inInt {x : Int} (h : inInt x) : int32 x = x := by
  unfold inInt at h
  unfold int32
  omega

theorem inInt_int32 (x : Int) : inInt (int32 x) := by
  unfold inInt int32
  omega

theorem int32_int32 (x : Int) : int32 (int32 x) = int32 x :=
  int32_of_inInt (inInt_int32 x)

theorem int32_add_left (a b : Int) : int32 (int32 a + b) = int32 (a + b) := by
  unfold int32
  omega

theorem int32_modEq (x : Int) : int32 x ≡ x [ZMOD 4294967296] := by
  unfold Int.ModEq int32
  omega

theorem int32_congr {a b : Int} (h : a ≡ b [ZMOD 4294967296]) : int32 a = int32 b := by
  unfold Int.ModEq at h
  unfold int32
  omega

/-- The length computed on line 129 is the formula reduced to 32 bits. -/
theorem symbolLength_eq (C N X I : Int) :
    symbolLength C N X I = int32 ((C + 2) * (3 * N + 6) * X + (C + 1) * I) := by
  unfold symbolLength iadd imul
  apply int32_congr
  have h1 : int32 (3 * N) ≡ 3 * N [ZMOD 4294967296] := int32_modEq _
  have h2 : int32 (int32 (3 * N) + 6) ≡ 3 * N + 6 [ZMOD 4294967296] :=
    (int32_modEq _).trans (h1.add_right 6)
  have h3 : int32 (C + 2) ≡ C + 2 [ZMOD 4294967296] := int32_modEq _
  have h4 : int32 (int32 (C + 2) * int32 (int32 (3 * N) + 6)) ≡ (C + 2) * (3 * N + 6)
      [ZMOD 4294967296] := (int32_modEq _).trans (h3.mul h2)
  have h5 : int32 (int32 (int32 (C + 2) * int32 (int32 (3 * N) + 6)) * X)
      ≡ (C + 2) * (3 * N + 6) * X [ZMOD 4294967296] :=
    (int32_modEq _).trans (h4.mul_right X)
  have h6 : int32 (int32 (C + 1) * I) ≡ (C + 1) * I [ZMOD 4294967296] :=
    (int32_modEq _).trans ((int32_modEq _).mul_right I)
  exact h5.add h6

theorem plannedLength_eq (str : QString) :
    plannedLength str = int32 (13 * (str.length : Int) + 25) := by
  unfold plannedLength
  simp only [symbolLength_eq, bar_width_mult, narrow_bar, interchange_gap]
  apply int32_congr
  have h : int32 (str.length : Int) ≡ (str.length : Int) [ZMOD 4294967296] := int32_modEq _
  have e : 13 * (str.length : Int) + 25
      = ((str.length : Int) + 2) * (3 * 2 + 6) * 1 + ((str.length : Int) + 1) * 1 := by ring
  rw [e]
  exact ((((h.add_right 2).mul_right _).mul_right 1).add ((h.add_right 1).mul_right 1))

theorem plannedLength_exact {str : QString} (h : 13 * (str.length : Int) + 25 ≤ 2147483647) :
    plannedLength str = 13 * (str.length : Int) + 25 := by
  rw [plannedLength_eq]
  apply int32_of_inInt
  unfold inInt
  omega

/-! ## The drawing loops -/

theorem barWidth_eq (v : Int) : barWidth v = elementWidth v := by
  have e : imul narrow_bar bar_width_mult = 2 := by decide
  have e' : narrow_bar = 1 := rfl
  unfold barWidth elementWidth
  rw [e, e']

theorem list_nine (l : List Int) (h : l.length = 9) :
    ∃ a b c d e f g h i, l = [a, b, c, d, e, f, g, h, i] := by
  match l, h with
  | [a, b, c, d, e, f, g, h, i], _ => exact ⟨a, b, c, d, e, f, g, h, i, rfl⟩

theorem drawBars_some_nine (r : QRect) (a b c d e f g h i : Int) (pos : Int) (p : QPainter)
    (hp : int32 pos = pos) :
    drawBars r.top r.height [a, b, c, d, e, f, g, h, i] false pos (some p)
      = (int32 (pos + (([a, b, c, d, e, f, g, h, i]).map barWidth).sum),
         some (p.addCalls (((charBars r pos [a, b, c, d, e, f, g, h, i]).map Bar.reduced).map
           Bar.toOp))) := by
  simp only [drawBars, barWidth_eq, iadd, int32_add_left]
  simp [QPainter.addCalls, QPainter.drawRect, charBars, Bar.toOp, barWidth_eq, Bar.reduced, hp]
  refine ⟨by congr 1; ring, by congr 1; ring, by congr 1; ring, by congr 1; ring,
    by congr 1; ring⟩

theorem drawBars_none (top ht : Int) (values : List Int) (space : Bool) (pos : Int)
    (hp : int32 pos = pos) :
    drawBars top ht values space pos none = (int32 (pos + (values.map barWidth).sum), none) := by
  induction values generalizing space pos with
  | nil => simp [drawBars, hp]
  | cons v vs ih =>
    simp only [drawBars, Option.map_none', ite_self, List.map_cons, List.sum_cons, iadd]
    rw [ih _ _ (int32_int32 _), int32_add_left, add_assoc]

theorem drawBars_none_painter (top ht : Int) (values : List Int) (space : Bool) (pos : Int) :
    (drawBars top ht values space pos none).2 = none := by
  induction values generalizing space pos with
  | nil => simp [drawBars]
  | cons v vs ih =>
    simp only [drawBars, Option.map_none', ite_self]
    exact ih _ _

theorem resolves_iff (c : Nat) : resolves c = true ↔ codeIndex c ≠ -1 := by
  simp [resolves]

theorem pattern_of_resolves {c : Nat} (h : resolves c = true) :
    (pattern c).length = 9 ∧ ((pattern c).map barWidth).sum = 12 := by
  have h1 := (scan_facts (toAscii (upper c)) (toAscii_lt _)).2.2
  rw [← codeIndex_eq] at h1
  exact h1 ((resolves_iff c).1 h)

theorem drawBars_pattern (r : QRect) {c : Nat} (h : resolves c = true) (pos : Int)
    (p : QPainter) (hp : int32 pos = pos) :
    drawBars r.top r.height (pattern c) false pos (some p)
      = (int32 (pos + 12),
         some (p.addCalls (((charBars r pos (pattern c)).map Bar.reduced).map Bar.toOp))) := by
  obtain ⟨hlen, hsum⟩ := pattern_of_resolves h
  obtain ⟨a, b, c', d, e, f, g, h', i, hpat⟩ := list_nine _ hlen
  rw [hpat] at hsum ⊢
  rw [drawBars_some_nine r _ _ _ _ _ _ _ _ _ pos p hp, hsum]

/-! ## The wrapped text and the reference -/

theorem addCalls_addCalls (p : QPainter) (xs ys : List PaintOp) :
    (p.addCalls xs).addCalls ys = p.addCalls (xs ++ ys) := by
  simp [QPainter.addCalls]

theorem addCalls_nil (p : QPainter) : p.addCalls [] = p := by
  simp [QPainter.addCalls]

theorem resolvedCount_cons (c : Nat) (cs : QString) :
    resolvedCount (c :: cs) = if resolves c then resolvedCount cs + 1 else resolvedCount cs := by
  unfold resolvedCount
  by_cases h : resolves c = true <;> simp [List.filter_cons, h]

theorem rectangles_append (xs ys : List PaintOp) :
    rectangles (xs ++ ys) = rectangles xs ++ rectangles ys := by
  induction xs with
  | nil => rfl
  | cons x xs ih => cases x <;> simp [rectangles, ih]

theorem rectangles_toOp (bs : List Bar) : rectangles (bs.map Bar.toOp) = bs := by
  induction bs with
  | nil => rfl
  | cons b bs ih => simp [rectangles, Bar.toOp, ih]

theorem resolves_star : resolves 0x2a = true := by decide

theorem charBars_star (r : QRect) (x0 : Int) : charBars r x0 (pattern 0x2a) = starBars r x0 := by
  have hp : pattern 0x2a = [0, 1, 0, 0, 1, 0, 1, 0, 0] := by decide
  rw [hp]
  simp [charBars, starBars, elementWidth]

theorem barsFrom_cons_pos (r : QRect) (x0 : Int) {c : Nat} (cs : QString)
    (h : resolves c = true) :
    barsFrom r x0 (c :: cs) = charBars r x0 (pattern c) ++ barsFrom r (x0 + 13) cs := by
  simp [barsFrom, h]

theorem barsFrom_cons_neg (r : QRect) (x0 : Int) {c : Nat} (cs : QString)
    (h : ¬resolves c = true) :
    barsFrom r x0 (c :: cs) = barsFrom r x0 cs := by
  simp [barsFrom, h]

theorem resolvedCount_cons_pos {c : Nat} (cs : QString) (h : resolves c = true) :
    resolvedCount (c :: cs) = resolvedCount cs + 1 := by
  simp [resolvedCount_cons, h]

theorem resolvedCount_cons_neg {c : Nat} (cs : QString) (h : ¬resolves c = true) :
    resolvedCount (c :: cs) = resolvedCount cs := by
  simp [resolvedCount_cons, h]

theorem resolvedCount_append (xs ys : QString) :
    resolvedCount (xs ++ ys) = resolvedCount xs + resolvedCount ys := by
  simp [resolvedCount]

theorem resolvedCount_nil : resolvedCount [] = 0 := rfl

theorem barsFrom_append (r : QRect) (x0 : Int) (xs ys : QString) :
    barsFrom r x0 (xs ++ ys)
      = barsFrom r x0 xs ++ barsFrom r (x0 + 13 * (resolvedCount xs : Int)) ys := by
  induction xs generalizing x0 with
  | nil => simp [barsFrom, resolvedCount]
  | cons c cs ih =>
    rw [List.cons_append]
    by_cases h : resolves c = true
    · rw [barsFrom_cons_pos r x0 _ h, barsFrom_cons_pos r x0 _ h, resolvedCount_cons_pos cs h, ih,
        List.append_assoc]
      have e : x0 + 13 + 13 * (resolvedCount cs : Int)
          = x0 + 13 * ((resolvedCount cs + 1 : Nat) : Int) := by
        push_cast; ring
      rw [e]
    · rw [barsFrom_cons_neg r x0 _ h, barsFrom_cons_neg r x0 _ h, resolvedCount_cons_neg cs h, ih]

theorem barsFrom_filter (r : QRect) (x0 : Int) (text : QString) :
    barsFrom r x0 (text.filter resolves) = barsFrom r x0 text := by
  induction text generalizing x0 with
  | nil => rfl
  | cons c cs ih =>
    by_cases h : resolves c = true
    · simp [List.filter_cons, barsFrom, h, ih]
    · simp [List.filter_cons, barsFrom, h, ih]

theorem flatMap_enumFrom (r : QRect) (x0 : Int) (text : QString) (n : Nat)
    (h : ∀ c ∈ text, resolves c = true) :
    ((text.enumFrom n).flatMap fun jc => charBars r (x0 + 13 * (jc.1 : Int)) (pattern jc.2))
      = barsFrom r (x0 + 13 * (n : Int)) text := by
  induction text generalizing n with
  | nil => rfl
  | cons c cs ih =>
    have hc : resolves c = true := h c (List.mem_cons_self c cs)
    have hcs : ∀ d ∈ cs, resolves d = true := fun d hd => h d (List.mem_cons_of_mem c hd)
    simp only [List.enumFrom_cons, List.flatMap_cons, barsFrom, hc, if_true, ih (n + 1) hcs]
    congr 2
    push_cast; ring

/-- The reference of the specification is what the drawing loop produces. -/
theorem referenceBars_eq (r : QRect) (startX : Int) (text : QString) :
    referenceBars r startX text = barsFrom r startX text := by
  unfold referenceBars List.enum
  rw [flatMap_enumFrom r startX _ 0 (fun c hc => (List.mem_filter.1 hc).2), barsFrom_filter]
  simp

theorem barsFrom_wrapped (dec : List Nat → QString) (r : QRect) (x0 : Int) (str : QString) :
    barsFrom r x0 (wrapped dec str)
      = starBars r x0 ++ (barsFrom r (x0 + 13) (fromUtf8 dec (toCString str))
          ++ starBars r (x0 + 13 * ((resolvedCount (fromUtf8 dec (toCString str)) : Int) + 1))) := by
  unfold wrapped
  simp only [barsFrom, resolves_star, if_true, barsFrom_append, charBars_star, List.append_nil]
  congr 3
  ring

theorem charBars_length (r : QRect) (x0 : Int) (values : List Int) :
    (charBars r x0 values).length = 5 := by
  simp [charBars]

theorem barsFrom_length (r : QRect) (x0 : Int) (text : QString) :
    (barsFrom r x0 text).length = 5 * resolvedCount text := by
  induction text generalizing x0 with
  | nil => simp [barsFrom, resolvedCount]
  | cons c cs ih =>
    by_cases h : resolves c = true
    · rw [barsFrom_cons_pos r x0 cs h, resolvedCount_cons_pos cs h, List.length_append,
        charBars_length, ih]
      ring
    · rw [barsFrom_cons_neg r x0 cs h, resolvedCount_cons_neg cs h, ih]

theorem resolvedCount_wrapped (dec : List Nat → QString) (str : QString) :
    resolvedCount (wrapped dec str) = resolvedCount (fromUtf8 dec (toCString str)) + 2 := by
  unfold wrapped
  rw [resolvedCount_cons_pos _ resolves_star, resolvedCount_append,
    resolvedCount_cons_pos _ resolves_star, resolvedCount_nil]

theorem elementWidth_pos (v : Int) : 1 ≤ elementWidth v := by
  unfold elementWidth
  split_ifs <;> omega

theorem charBars_within (r : QRect) (x0 : Int) {c : Nat} (h : resolves c = true) :
    ∀ b ∈ charBars r x0 (pattern c), x0 ≤ b.x ∧ b.x + b.w ≤ x0 + 12 := by
  obtain ⟨hlen, hsum⟩ := pattern_of_resolves h
  obtain ⟨a1, a2, a3, a4, a5, a6, a7, a8, a9, hp⟩ := list_nine _ hlen
  rw [hp] at hsum ⊢
  simp only [List.map_cons, List.map_nil, List.sum_cons, List.sum_nil, barWidth_eq] at hsum
  have h1 := elementWidth_pos a1
  have h2 := elementWidth_pos a2
  have h3 := elementWidth_pos a3
  have h4 := elementWidth_pos a4
  have h5 := elementWidth_pos a5
  have h6 := elementWidth_pos a6
  have h7 := elementWidth_pos a7
  have h8 := elementWidth_pos a8
  have h9 := elementWidth_pos a9
  intro b hb
  simp only [charBars, List.map_cons, List.map_nil, List.mem_cons, List.mem_singleton,
    List.not_mem_nil, or_false] at hb
  rcases hb with hb | hb | hb | hb | hb <;> subst hb <;>
    simp [List.take, List.getD] <;> omega

/-- Every rectangle of a text lies between the start of its first character
and the end of its last one. -/
theorem barsFrom_within (r : QRect) (x0 : Int) (text : QString) :
    ∀ b ∈ barsFrom r x0 text,
      x0 ≤ b.x ∧ b.x + b.w ≤ x0 + 13 * (resolvedCount text : Int) - 1 := by
  induction text generalizing x0 with
  | nil => intro b hb; simp [barsFrom] at hb
  | cons c cs ih =>
    intro b hb
    by_cases h : resolves c = true
    · rw [barsFrom_cons_pos r x0 cs h, List.mem_append] at hb
      rw [resolvedCount_cons_pos cs h]
      push_cast
      rcases hb with hb | hb
      · have := charBars_within r x0 h b hb
        omega
      · have := ih (x0 + 13) b hb
        omega
    · rw [barsFrom_cons_neg r x0 cs h] at hb
      rw [resolvedCount_cons_neg cs h]
      exact ih x0 b hb

theorem charBars_moved (r1 r2 : QRect) (x0 d : Int) (values : List Int) :
    charBars r2 (x0 + d) values = (charBars r1 x0 values).map (Bar.moved r2 d) := by
  simp only [charBars, Bar.moved, List.map_cons, List.map_nil, List.cons.injEq, Bar.mk.injEq,
    and_true, true_and]
  refine ⟨?_, ?_, ?_, ?_, ?_⟩ <;> ring

theorem barsFrom_moved (r1 r2 : QRect) (x0 d : Int) (text : QString) :
    barsFrom r2 (x0 + d) text = (barsFrom r1 x0 text).map (Bar.moved r2 d) := by
  induction text generalizing x0 with
  | nil => simp [barsFrom]
  | cons c cs ih =>
    by_cases h : resolves c = true
    · rw [barsFrom_cons_pos r2 _ cs h, barsFrom_cons_pos r1 _ cs h, List.map_append,
        ← charBars_moved, ← ih]
      have e : x0 + d + 13 = x0 + 13 + d := by ring
      rw [e]
    · rw [barsFrom_cons_neg r2 _ cs h, barsFrom_cons_neg r1 _ cs h, ih]

theorem barsFrom_top_height (r : QRect) (x0 : Int) (text : QString) :
    ∀ b ∈ barsFrom r x0 text, b.y = r.top ∧ b.h = r.height := by
  induction text generalizing x0 with
  | nil => intro b hb; simp [barsFrom] at hb
  | cons c cs ih =>
    intro b hb
    by_cases h : resolves c = true
    · rw [barsFrom_cons_pos r x0 cs h, List.mem_append] at hb
      rcases hb with hb | hb
      · simp only [charBars, List.map_cons, List.map_nil, List.mem_cons, List.mem_singleton,
          List.not_mem_nil, or_false] at hb
        rcases hb with hb | hb | hb | hb | hb <;> subst hb <;> exact ⟨rfl, rfl⟩
      · exact ih _ b hb
    · rw [barsFrom_cons_neg r x0 cs h] at hb
      exact ih _ b hb

theorem charBars_chain (r : QRect) (x0 : Int) {c : Nat} (h : resolves c = true) :
    List.Chain' separated (charBars r x0 (pattern c)) := by
  obtain ⟨hlen, -⟩ := pattern_of_resolves h
  obtain ⟨a1, a2, a3, a4, a5, a6, a7, a8, a9, hp⟩ := list_nine _ hlen
  rw [hp]
  have h1 := elementWidth_pos a1
  have h2 := elementWidth_pos a2
  have h3 := elementWidth_pos a3
  have h4 := elementWidth_pos a4
  have h5 := elementWidth_pos a5
  have h6 := elementWidth_pos a6
  have h7 := elementWidth_pos a7
  have h8 := elementWidth_pos a8
  simp only [charBars, List.map_cons, List.map_nil, List.chain'_cons, List.chain'_singleton,
    and_true, separated]
  simp [List.take, List.getD]
  refine ⟨?_, ?_, ?_, ?_⟩ <;> omega

/-- Consecutive rectangles of a text are separated by at least one pixel. -/
theorem barsFrom_chain (r : QRect) (x0 : Int) (text : QString) :
    List.Chain' separated (barsFrom r x0 text) := by
  induction text generalizing x0 with
  | nil => simp [barsFrom]
  | cons c cs ih =>
    by_cases h : resolves c = true
    · rw [barsFrom_cons_pos r x0 cs h]
      refine List.Chain'.append (charBars_chain r x0 h) (ih _) ?_
      intro a ha b hb
      have ha' := charBars_within r x0 h a (List.mem_of_mem_getLast? ha)
      have hb' := barsFrom_within r (x0 + 13) cs b (List.mem_of_mem_head? hb)
      unfold separated
      omega
    · rw [barsFrom_cons_neg r x0 cs h]
      exact ih _

theorem barsFrom_width (r : QRect) (x0 : Int) (text : QString) :
    ∀ b ∈ barsFrom r x0 text, 1 ≤ b.w := by
  induction text generalizing x0 with
  | nil => intro b hb; simp [barsFrom] at hb
  | cons c cs ih =>
    intro b hb
    by_cases h : resolves c = true
    · rw [barsFrom_cons_pos r x0 cs h, List.mem_append] at hb
      rcases hb with hb | hb
      · simp only [charBars, List.map_cons, List.map_nil, List.mem_cons, List.mem_singleton,
          List.not_mem_nil, or_false] at hb
        rcases hb with hb | hb | hb | hb | hb <;> subst hb <;> exact elementWidth_pos _
      · exact ih _ b hb
    · rw [barsFrom_cons_neg r x0 cs h] at hb
      exact ih _ b hb

/-- Reducing the rectangles of a text to 32 bits gives the same whether the
text starts at a position or at that position reduced to 32 bits. -/
theorem barsFrom_int32 (r : QRect) (x : Int) (text : QString) :
    (barsFrom r (int32 x) text).map Bar.reduced = (barsFrom r x text).map Bar.reduced := by
  have e : int32 x = x + (int32 x - x) := by ring
  rw [e, barsFrom_moved r r, List.map_map]
  apply List.map_congr_left
  intro b hb
  obtain ⟨hy, hh⟩ := barsFrom_top_height r x text b hb
  simp only [Function.comp, Bar.reduced, Bar.moved, Bar.mk.injEq, true_and]
  refine ⟨?_, hy.symm, hh.symm⟩
  unfold int32
  omega

/-- Where no position of a text leaves the range of `int`, reducing to 32 bits
changes nothing. -/
theorem reduced_barsFrom (r : QRect) (x0 : Int) (text : QString) (h0 : -2147483648 ≤ x0)
    (h1 : x0 + 13 * (resolvedCount text : Int) ≤ 2147483647) :
    (barsFrom r x0 text).map Bar.reduced = barsFrom r x0 text := by
  conv_rhs => rw [← List.map_id (barsFrom r x0 text)]
  apply List.map_congr_left
  intro b hb
  have hw := barsFrom_within r x0 text b hb
  have hp := barsFrom_width r x0 text b hb
  have hx : int32 b.x = b.x := int32_of_inInt (by unfold inInt; omega)
  cases b
  simp only [Bar.reduced, id, Bar.mk.injEq, and_true]
  exact hx

theorem drawChars_some (r : QRect) (text : QString) (pos : Int) (p : QPainter)
    (hp : int32 pos = pos) :
    drawChars r.top r.height text pos (some p)
      = (int32 (pos + 13 * (resolvedCount text : Int)),
         some (p.addCalls (((barsFrom r pos text).map Bar.reduced).map Bar.toOp))) := by
  induction text generalizing pos p with
  | nil => simp [drawChars, barsFrom, resolvedCount, addCalls_nil, hp]
  | cons c cs ih =>
    by_cases h : resolves c = true
    · have hi : codeIndex c ≠ -1 := (resolves_iff c).1 h
      have hb := drawBars_pattern r h pos p hp
      unfold pattern at hb
      have hnext : iadd (int32 (pos + 12)) interchange_gap = int32 (pos + 13) := by
        unfold iadd interchange_gap narrow_bar
        rw [int32_add_left]
        congr 1
        ring
      rw [drawChars]
      simp only [if_neg hi, hb, hnext]
      rw [ih _ _ (int32_int32 _), barsFrom_int32, int32_add_left, addCalls_addCalls,
        barsFrom_cons_pos r pos cs h, resolvedCount_cons_pos cs h]
      simp only [List.map_append]
      congr 2
      push_cast
      ring
    · have hi : codeIndex c = -1 := by
        by_contra hn
        exact h ((resolves_iff c).2 hn)
      rw [drawChars]
      simp only [if_pos hi]
      rw [ih _ _ hp, barsFrom_cons_neg r pos cs h, resolvedCount_cons_neg cs h]

theorem drawChars_none (top ht : Int) (text : QString) (pos : Int) (hp : int32 pos = pos) :
    drawChars top ht text pos none = (int32 (pos + 13 * (resolvedCount text : Int)), none) := by
  induction text generalizing pos with
  | nil => simp [drawChars, resolvedCount, hp]
  | cons c cs ih =>
    by_cases h : resolves c = true
    · have hi : codeIndex c ≠ -1 := (resolves_iff c).1 h
      have hs := (pattern_of_resolves h).2
      unfold pattern at hs
      have hnext : iadd (int32 (pos + 12)) interchange_gap = int32 (pos + 13) := by
        unfold iadd interchange_gap narrow_bar
        rw [int32_add_left]
        congr 1
        ring
      rw [drawChars]
      simp only [if_neg hi, drawBars_none _ _ _ _ _ hp, hs, hnext]
      rw [ih _ (int32_int32 _), int32_add_left, resolvedCount_cons_pos cs h]
      congr 2
      push_cast
      ring
    · have hi : codeIndex c = -1 := by
        by_contra hn
        exact h ((resolves_iff c).2 hn)
      rw [drawChars]
      simp only [if_pos hi]
      rw [ih _ hp, resolvedCount_cons_neg cs h]

theorem int32_startPos (r : QRect) (str : QString) (align : Int) :
    int32 (startPos r str align) = startPos r str align := by
  unfold startPos iadd
  exact int32_int32 _

theorem inInt_startPos (r : QRect) (str : QString) (align : Int) :
    inInt (startPos r str align) := by
  unfold startPos iadd
  exact inInt_int32 _

/-- The painter after `render3of9`: pen, brush and stack are those before the
call, and the calls received are `save`, `setPen`, `setBrush`, the rectangles
of the wrapped text with their positions reduced to 32 bits, and `restore`. -/
theorem render3of9_some (dec : List Nat → QString) (r : QRect) (str : QString) (align : Int)
    (p : QPainter) :
    render3of9 dec r str align (some p)
      = (int32 (startPos r str align + 13 * (resolvedCount (wrapped dec str) : Int)),
         some (p.addCalls ([PaintOp.save, PaintOp.setPen p.pen.color,
            PaintOp.setBrush p.pen.color]
            ++ ((barsFrom r (startPos r str align) (wrapped dec str)).map Bar.reduced).map
              Bar.toOp
            ++ [PaintOp.restore]))) := by
  simp only [render3of9, Option.map_some']
  rw [drawChars_some _ _ _ _ (int32_startPos r str align)]
  simp [QPainter.addCalls, QPainter.save, QPainter.setPen, QPainter.setBrush, QPainter.restore]

/-- The rectangles of a call are those of the wrapped text from the start
position, with their positions reduced to 32 bits. -/
theorem drawn_eq (dec : List Nat → QString) (r : QRect) (str : QString) (align : Int)
    (p : QPainter) :
    drawn dec r str align p
      = (barsFrom r (startPos r str align) (wrapped dec str)).map Bar.reduced := by
  simp only [drawn, render3of9_some, callsSince, QPainter.addCalls, List.drop_left,
    rectangles_append, rectangles_toOp]
  simp [rectangles]

/-- Where the cursor stays in the range of `int`, the rectangles of a call are
those of the wrapped text from the start position. -/
theorem drawn_exact (dec : List Nat → QString) (r : QRect) (str : QString) (align : Int)
    (p : QPainter) (h : cursorFits dec r str align) :
    drawn dec r str align p = barsFrom r (startPos r str align) (wrapped dec str) := by
  rw [drawn_eq]
  exact reduced_barsFrom r _ _ (inInt_startPos r str align).1 h

theorem render3of9_cursor (dec : List Nat → QString) (r : QRect) (str : QString) (align : Int)
    (p : QPainter) (h : cursorFits dec r str align) :
    (render3of9 dec r str align (some p)).1
      = startPos r str align + 13 * (resolvedCount (wrapped dec str) : Int) := by
  rw [render3of9_some]
  apply int32_of_inInt
  have := (inInt_startPos r str align).1
  unfold cursorFits at h
  unfold inInt
  constructor <;> omega

/-- The first rectangle of every call is the first bar of the start sentinel,
one pixel wide, at the start position. -/
theorem drawn_head (dec : List Nat → QString) (r : QRect) (str : QString) (align : Int)
    (p : QPainter) :
    (drawn dec r str align p).head? = some ⟨startPos r str align, r.top, 1, r.height⟩ := by
  rw [drawn_eq, barsFrom_wrapped]
  simp [starBars, Bar.reduced, int32_startPos]

theorem drawn_length (dec : List Nat → QString) (r : QRect) (str : QString) (align : Int)
    (p : QPainter) :
    (drawn dec r str align p).length
      = 5 * (resolvedCount (fromUtf8 dec (toCString str)) + 2) := by
  rw [drawn_eq, List.length_map, barsFrom_length, resolvedCount_wrapped]

/-- The right edge of the last rectangle of a call whose cursor stays in the
range of `int`: the end of the stop sentinel. -/
theorem drawn_last (dec : List Nat → QString) (r : QRect) (str : QString) (align : Int)
    (p : QPainter) (h : cursorFits dec r str align) :
    (drawn dec r str align p).getLast?.map Bar.right
      = some (startPos r str align
          + 13 * (resolvedCount (fromUtf8 dec (toCString str)) : Int) + 25) := by
  rw [drawn_exact dec r str align p h, barsFrom_wrapped, ← List.append_assoc]
  simp only [starBars, List.getLast?_append_cons, List.getLast?_cons_cons,
    List.getLast?_singleton, Option.map_some', Bar.right]
  congr 1
  ring

theorem toCString_sevenBit {str : QString} (h : sevenBit str) : toCString str = str := by
  unfold toCString
  induction str with
  | nil => rfl
  | cons c cs ih =>
    have hc := h c (List.mem_cons_self c cs)
    have hcs : sevenBit cs := fun d hd => h d (List.mem_cons_of_mem c hd)
    have e : toLatin1 c = c := by unfold toLatin1; split_ifs <;> omega
    have ne : (c != 0) = true := by simp; omega
    simp only [List.map_cons, e, List.takeWhile_cons, ne, if_true, ih hcs]

theorem wrapped_sevenBit (dec : List Nat → QString) {str : QString} (h : sevenBit str) :
    wrapped dec str = 0x2a :: (str ++ [0x2a]) := by
  unfold wrapped fromUtf8
  rw [toCString_sevenBit h]
  have hall : (str.all fun b => decide (b < 0x80)) = true := by
    rw [List.all_eq_true]
    intro c hc
    simpa using (h c hc).2
  rw [if_pos hall]

theorem resolvedCount_le (text : QString) : resolvedCount text ≤ text.length := by
  unfold resolvedCount
  exact List.length_filter_le _ _

theorem toCString_length (str : QString) : (toCString str).length ≤ str.length := by
  unfold toCString
  calc ((str.map toLatin1).takeWhile fun b => b != 0).length
      ≤ (str.map toLatin1).length := (List.takeWhile_sublist _).length_le
    _ = str.length := List.length_map _ _

theorem resolvedCount_fromUtf8 {dec : List Nat → QString} (h : boundedDecoder dec)
    (str : QString) : resolvedCount (fromUtf8 dec (toCString str)) ≤ str.length := by
  unfold fromUtf8
  split_ifs
  · exact (resolvedCount_le _).trans (toCString_length str)
  · exact (h _).trans (toCString_length str)

set_option maxRecDepth 100000 in
theorem supported_facts : ∀ c < 128, supported c → resolves c = true ∧ 0 < c := by
  decide

theorem supported_lt {c : Nat} (h : supported c) : c < 128 := by
  rcases h with h | h
  · exact (supportedKeys_lt c h).1
  · omega

theorem sevenBit_of_supported {str : QString} (h : ∀ c ∈ str, supported c) : sevenBit str :=
  fun c hc => ⟨(supported_facts c (supported_lt (h c hc)) (h c hc)).2, supported_lt (h c hc)⟩

theorem resolvedCount_of_supported {str : QString} (h : ∀ c ∈ str, supported c) :
    resolvedCount str = str.length := by
  unfold resolvedCount
  rw [List.filter_eq_self.2]
  intro c hc
  exact (supported_facts c (supported_lt (h c hc)) (h c hc)).1

theorem fromUtf8_sevenBit (dec : List Nat → QString) {str : QString} (h : sevenBit str) :
    fromUtf8 dec (toCString str) = str := by
  have := wrapped_sevenBit dec h
  unfold wrapped at this
  simpa using this

set_option maxRecDepth 100000 in
theorem codeIndex_latin1 : ∀ c < 256, ¬supported c → codeIndex c = -1 := by
  decide

theorem count_save_toOp (bs : List Bar) : (bs.map Bar.toOp).count PaintOp.save = 0 := by
  induction bs with
  | nil => rfl
  | cons b bs ih => simp [Bar.toOp, ih]

theorem count_restore_toOp (bs : List Bar) : (bs.map Bar.toOp).count PaintOp.restore = 0 := by
  induction bs with
  | nil => rfl
  | cons b bs ih => simp [Bar.toOp, ih]

/-! ## The 8-bit view of a value -/

theorem toLatin1_of_lt {c : Nat} (h : c < 0x80) : toLatin1 c = c := by
  unfold toLatin1
  split_ifs <;> omega

theorem toLatin1_of_gt {c : Nat} (h : 0xff < c) : toLatin1 c = 0x3f := by
  unfold toLatin1
  split_ifs <;> omega

theorem toLatin1_plain {c : Nat} (h : c ≠ 0 ∧ ¬(0x80 ≤ c ∧ c ≤ 0xff)) :
    toLatin1 c ≠ 0 ∧ toLatin1 c < 0x80 := by
  unfold toLatin1
  split_ifs <;> omega

theorem toCString_plain {str : QString} (h : plainValue str) :
    toCString str = str.map toLatin1 := by
  unfold toCString
  induction str with
  | nil => rfl
  | cons c cs ih =>
    have hc := toLatin1_plain (h c (List.mem_cons_self c cs))
    have hcs : plainValue cs := fun d hd => h d (List.mem_cons_of_mem c hd)
    have ne : (toLatin1 c != 0) = true := by simpa using hc.1
    simp only [List.map_cons, List.takeWhile_cons, ne, if_true, ih hcs]

/-- The text substituted for `%s`, for a value without NUL and without a
character from U+0080 to U+00FF: the 8-bit view of the value. -/
theorem fromUtf8_plain (dec : List Nat → QString) {str : QString} (h : plainValue str) :
    fromUtf8 dec (toCString str) = str.map toLatin1 := by
  unfold fromUtf8
  rw [toCString_plain h]
  have hall : ((str.map toLatin1).all fun b => decide (b < 0x80)) = true := by
    rw [List.all_eq_true]
    intro b hb
    obtain ⟨c, hc, rfl⟩ := List.mem_map.1 hb
    simpa using (toLatin1_plain (h c hc)).2
  rw [if_pos hall]

theorem resolves_question : resolves 0x3f = false := by decide

theorem codeIndex_above {c : Nat} (h : 0xff < c) (h1 : c ≠ 0x131) (h2 : c ≠ 0x17f) :
    codeIndex c = -1 := by
  have hu : upper c = c := by apply upper_fixed <;> omega
  rw [codeIndex_eq, hu, toAscii_of_gt h]
  decide

theorem not_resolves_above {c : Nat} (h : 0xff < c) (h1 : c ≠ 0x131) (h2 : c ≠ 0x17f) :
    ¬resolves c = true := by
  rw [resolves_iff]
  exact fun hn => hn (codeIndex_above h h1 h2)

theorem plainValue_of_exactValue {str : QString} (h : exactValue str) : plainValue str :=
  fun c hc => ⟨(h c hc).1, (h c hc).2.1⟩

/-- For a value without the characters that the 8-bit view changes for the
lookup, the rectangles of the 8-bit view are those of the value. -/
theorem barsFrom_latin1 (r : QRect) (x0 : Int) {str : QString} (h : exactValue str) :
    barsFrom r x0 (str.map toLatin1) = barsFrom r x0 str := by
  induction str generalizing x0 with
  | nil => rfl
  | cons c cs ih =>
    have hc := h c (List.mem_cons_self c cs)
    have hcs : exactValue cs := fun d hd => h d (List.mem_cons_of_mem c hd)
    rw [List.map_cons]
    by_cases hlt : c < 0x80
    · rw [toLatin1_of_lt hlt]
      by_cases hr : resolves c = true
      · rw [barsFrom_cons_pos r x0 _ hr, barsFrom_cons_pos r x0 _ hr, ih _ hcs]
      · rw [barsFrom_cons_neg r x0 _ hr, barsFrom_cons_neg r x0 _ hr, ih _ hcs]
    · have hgt : 0xff < c := by omega
      rw [toLatin1_of_gt hgt, barsFrom_cons_neg r x0 _ (by rw [resolves_question]; simp),
        barsFrom_cons_neg r x0 _ (not_resolves_above hgt hc.2.2.1 hc.2.2.2), ih _ hcs]

theorem resolvedCount_latin1 {str : QString} (h : exactValue str) :
    resolvedCount (str.map toLatin1) = resolvedCount str := by
  induction str with
  | nil => rfl
  | cons c cs ih =>
    have hc := h c (List.mem_cons_self c cs)
    have hcs : exactValue cs := fun d hd => h d (List.mem_cons_of_mem c hd)
    rw [List.map_cons]
    by_cases hlt : c < 0x80
    · rw [toLatin1_of_lt hlt]
      by_cases hr : resolves c = true
      · rw [resolvedCount_cons_pos _ hr, resolvedCount_cons_pos _ hr, ih hcs]
      · rw [resolvedCount_cons_neg _ hr, resolvedCount_cons_neg _ hr, ih hcs]
    · have hgt : 0xff < c := by omega
      rw [toLatin1_of_gt hgt, resolvedCount_cons_neg _ (by rw [resolves_question]; simp),
        resolvedCount_cons_neg _ (not_resolves_above hgt hc.2.2.1 hc.2.2.2), ih hcs]

/-- For a value without NUL and without a character from U+0080 to U+00FF,
removing the characters that do not resolve leaves the rectangles of the 8-bit
view as they are. -/
theorem barsFrom_latin1_filter (r : QRect) (x0 : Int) {str : QString} (h : plainValue str) :
    barsFrom r x0 ((str.filter resolves).map toLatin1) = barsFrom r x0 (str.map toLatin1) := by
  induction str generalizing x0 with
  | nil => rfl
  | cons c cs ih =>
    have hc := h c (List.mem_cons_self c cs)
    have hcs : plainValue cs := fun d hd => h d (List.mem_cons_of_mem c hd)
    by_cases hr : resolves c = true
    · rw [List.filter_cons_of_pos hr, List.map_cons, List.map_cons]
      by_cases hl : resolves (toLatin1 c) = true
      · rw [barsFrom_cons_pos r x0 _ hl, barsFrom_cons_pos r x0 _ hl, ih _ hcs]
      · rw [barsFrom_cons_neg r x0 _ hl, barsFrom_cons_neg r x0 _ hl, ih _ hcs]
    · rw [List.filter_cons_of_neg hr, List.map_cons]
      have hl : ¬resolves (toLatin1 c) = true := by
        by_cases hlt : c < 0x80
        · rw [toLatin1_of_lt hlt]; exact hr
        · rw [toLatin1_of_gt (by omega), resolves_question]; simp
      rw [barsFrom_cons_neg r x0 _ hl, ih _ hcs]

set_option maxRecDepth 100000 in
theorem resolves_iff_supported : ∀ c < 128, c ≠ 0 → (resolves c = true ↔ supported c) := by
  decide

/-- For a value without NUL and without a character from U+0080 to U+00FF,
the characters of the 8-bit view that resolve are as many as the supported
characters of the value. -/
theorem resolvedCount_plain {str : QString} (h : plainValue str) :
    (resolvedCount (str.map toLatin1) : Int)
      = (str.length : Int) - (unsupportedCount str : Int) := by
  induction str with
  | nil => rfl
  | cons c cs ih =>
    have hc := h c (List.mem_cons_self c cs)
    have hcs : plainValue cs := fun d hd => h d (List.mem_cons_of_mem c hd)
    have ih' := ih hcs
    rw [List.map_cons]
    have hu : ∀ b : Bool, (!decide (supported c)) = b →
        (unsupportedCount (c :: cs) : Int) = unsupportedCount cs + (if b then 1 else 0) := by
      intro b hb
      unfold unsupportedCount
      cases b <;> simp [List.filter_cons, hb]
    by_cases hs : supported c
    · have hr : resolves (toLatin1 c) = true := by
        have hlt := supported_lt hs
        rw [toLatin1_of_lt hlt]
        exact (resolves_iff_supported c hlt hc.1).2 hs
      rw [resolvedCount_cons_pos _ hr, hu false (by simp [hs])]
      simp only [List.length_cons]
      push_cast
      simp
      omega
    · have hr : ¬resolves (toLatin1 c) = true := by
        by_cases hlt : c < 0x80
        · rw [toLatin1_of_lt hlt]
          exact fun hres => hs ((resolves_iff_supported c hlt hc.1).1 hres)
        · rw [toLatin1_of_gt (by omega), resolves_question]; simp
      rw [resolvedCount_cons_neg _ hr, hu true (by simp [hs])]
      simp only [List.length_cons]
      push_cast
      simp
      omega

/-! ## The start position -/

theorem tdiv_two (a : Int) : a.tdiv 2 = if 0 ≤ a then a / 2 else -((-a) / 2) := by
  split_ifs with h
  · exact Int.tdiv_eq_ediv h (by omega)
  · have e : a = -(-a) := by ring
    conv_lhs => rw [e, Int.neg_tdiv, Int.tdiv_eq_ediv (show 0 ≤ -a by omega) (by omega)]

theorem quietZone_left {align : Int} (draw_width L : Int) (h : align < 1) :
    quietZone draw_width L align = 10 := by
  have h1 : ¬align = 1 := by omega
  have h2 : ¬align > 1 := by omega
  have e : imul narrow_bar 10 = 10 := by decide
  simp [quietZone, e, h1, h2]

theorem quietZone_center (draw_width L : Int) (h : inInt (draw_width - L)) :
    quietZone draw_width L 1
      = if 10 ≤ (draw_width - L).tdiv 2 then (draw_width - L).tdiv 2 else 10 := by
  have e : imul narrow_bar 10 = 10 := by decide
  have hq : idiv (isub draw_width L) 2 = (draw_width - L).tdiv 2 := by
    unfold idiv isub
    rw [int32_of_inInt h]
    apply int32_of_inInt
    unfold inInt at h ⊢
    rw [tdiv_two]
    split_ifs <;> omega
  simp only [quietZone, e, hq]
  norm_num
  split_ifs <;> omega

theorem quietZone_right {align : Int} (draw_width L : Int) (h : 1 < align)
    (h1 : inInt (L + 10)) (h2 : inInt (draw_width - (L + 10))) :
    quietZone draw_width L align = draw_width - (L + 10) := by
  have hn : ¬align = 1 := by omega
  have e : imul narrow_bar 10 = 10 := by decide
  simp only [quietZone, e, hn, if_false, gt_iff_lt, h, if_true]
  norm_num
  unfold isub iadd
  rw [int32_of_inInt h1, int32_of_inInt h2]

/-! ## The claims on the geometry and on the rectangles drawn -/

/-- C1, as the specification states it, fails: `L` is computed in the 32-bit
type `int`; for a value of 165191048 characters `13 * C + 25` is 2147483649,
beyond the range of `int`, and the `L` computed is -2147483647. -/
theorem plannedLength_overflow :
    13 * ((List.replicate 165191048 0x41 : QString).length : Int) + 25 = 2147483649 ∧
    plannedLength (List.replicate 165191048 0x41) = -2147483647 ∧
    plannedLength (List.replicate 165191048 0x41)
      ≠ 13 * ((List.replicate 165191048 0x41 : QString).length : Int) + 25 := by
  have e : ((List.replicate 165191048 0x41 : QString).length : Int) = 165191048 := by
    rw [List.length_replicate]
    rfl
  rw [plannedLength_eq, e]
  decide

/-- C1, amended.  The length `L` that `render3of9` computes is
`(C+2)*(3N+6)*X + (C+1)*I` in the length `C` of the value and the locals `N`,
`X`, `I`, reduced to the 32 bits of `int`, and is that number itself when it
lies in the range of `int`; with the fixed constants `X = 1`, `N = 2`, `I = 1`
it is `13 * C + 25` for every value for which `13 * C + 25` does not exceed
2^31 - 1, so the value `123` gives 64. -/
theorem plannedLength_formula (str : QString)
    (h : 13 * (str.length : Int) + 25 ≤ 2147483647) :
    plannedLength str = 13 * (str.length : Int) + 25 ∧
    (∀ C N X I : Int,
      symbolLength C N X I = int32 ((C + 2) * (3 * N + 6) * X + (C + 1) * I)) ∧
    (∀ C N X I : Int, inInt ((C + 2) * (3 * N + 6) * X + (C + 1) * I) →
      symbolLength C N X I = (C + 2) * (3 * N + 6) * X + (C + 1) * I) ∧
    plannedLength [0x31, 0x32, 0x33] = 64 := by
  refine ⟨plannedLength_exact h, symbolLength_eq, ?_, by decide⟩
  intro C N X I hin
  rw [symbolLength_eq, int32_of_inInt hin]

/-- An instance of `plannedLength_formula`: the value `123`. -/
theorem plannedLength_formula_witness :
    13 * (([0x31, 0x32, 0x33] : QString).length : Int) + 25 ≤ 2147483647 ∧
    (plannedLength [0x31, 0x32, 0x33] = 13 * (([0x31, 0x32, 0x33] : QString).length : Int) + 25 ∧
    (∀ C N X I : Int,
      symbolLength C N X I = int32 ((C + 2) * (3 * N + 6) * X + (C + 1) * I)) ∧
    (∀ C N X I : Int, inInt ((C + 2) * (3 * N + 6) * X + (C + 1) * I) →
      symbolLength C N X I = (C + 2) * (3 * N + 6) * X + (C + 1) * I) ∧
    plannedLength [0x31, 0x32, 0x33] = 64) :=
  ⟨by decide, plannedLength_formula [0x31, 0x32, 0x33] (by decide)⟩

/-- C5, as the specification states it, fails in two ways.  The cursor is a
32-bit `int`: in a rectangle whose left edge is 2147483635 it passes 2^31 - 1
inside the start sentinel, and the second rectangle is drawn at -2147483648,
not at `startX + 3`.  And for the value NUL `A` only the 10 rectangles of the
two sentinels are drawn, because the C string handed to `sprintf` (line 151)
ends at the NUL, while the reference over `*`, NUL, `A`, `*` has the 15
rectangles of `*A*`. -/
theorem drawn_reference_fails :
    (drawn sampleDecoder farRect [] 0 samplePainter).take 2
      = [⟨2147483645, 0, 1, 20⟩, ⟨-2147483648, 0, 1, 20⟩] ∧
    (referenceBars farRect (startPos farRect [] 0) (0x2a :: ([] ++ [0x2a]))).take 2
      = [⟨2147483645, 0, 1, 20⟩, ⟨2147483648, 0, 1, 20⟩] ∧
    drawn sampleDecoder farRect [] 0 samplePainter
      ≠ referenceBars farRect (startPos farRect [] 0) (0x2a :: ([] ++ [0x2a])) ∧
    (drawn sampleDecoder sampleRect [0, 0x41] 0 samplePainter).length = 10 ∧
    (referenceBars sampleRect (startPos sampleRect [0, 0x41] 0)
      (0x2a :: ([0, 0x41] ++ [0x2a]))).length = 15 ∧
    drawn sampleDecoder sampleRect [0, 0x41] 0 samplePainter
      ≠ referenceBars sampleRect (startPos sampleRect [0, 0x41] 0)
          (0x2a :: ([0, 0x41] ++ [0x2a])) := by
  decide

theorem barsFrom_wrapped_exact (dec : List Nat → QString) (r : QRect) (x0 : Int)
    {str : QString} (h : exactValue str) :
    barsFrom r x0 (wrapped dec str) = barsFrom r x0 (0x2a :: (str ++ [0x2a])) := by
  unfold wrapped
  rw [fromUtf8_plain dec (plainValue_of_exactValue h), barsFrom_cons_pos r x0 _ resolves_star,
    barsFrom_cons_pos r x0 _ resolves_star, barsFrom_append, barsFrom_append,
    barsFrom_latin1 r _ h, resolvedCount_latin1 h]

/-- C5, amended.  For every value, rectangle, alignment and painter such that
the cursor stays in the range of `int`, the value being without NUL, without a
character from U+0080 to U+00FF and without U+0131 and U+017F, the rectangles
drawn are the reference: the `j`-th character of `*` value `*` that resolves
contributes one rectangle for each element 0, 2, 4, 6, 8 of its pattern, at
`startX + 13 * j` plus the widths of the elements before it, at the top of the
rectangle, 2 wide if the element is wide and 1 otherwise, as high as the
rectangle. -/
theorem drawn_reference (dec : List Nat → QString) (r : QRect) (str : QString) (align : Int)
    (p : QPainter) (h : exactValue str) (hc : cursorFits dec r str align) :
    drawn dec r str align p
      = referenceBars r (startPos r str align) (0x2a :: (str ++ [0x2a])) := by
  rw [drawn_exact dec r str align p hc, referenceBars_eq, barsFrom_wrapped_exact dec r _ h]

/-- An instance of `drawn_reference`: the value `1`, a Chinese character and
`a`, centred. -/
theorem drawn_reference_witness :
    exactValue [0x31, 0x4e2d, 0x61] ∧
    cursorFits sampleDecoder sampleRect [0x31, 0x4e2d, 0x61] 1 ∧
    drawn sampleDecoder sampleRect [0x31, 0x4e2d, 0x61] 1 samplePainter
      = referenceBars sampleRect (startPos sampleRect [0x31, 0x4e2d, 0x61] 1)
          (0x2a :: ([0x31, 0x4e2d, 0x61] ++ [0x2a])) :=
  ⟨by decide, by decide,
    drawn_reference sampleDecoder sampleRect [0x31, 0x4e2d, 0x61] 1 samplePainter
      (by decide) (by decide)⟩

/-- C6, as the specification states it, fails: the start position is a 32-bit
`int`; in a rectangle whose left edge is 2147483640 the sum `rect.left + 10`
passes 2^31 - 1 and the first rectangle is drawn at -2147483646. -/
theorem left_start_overflow :
    startPos ⟨2147483640, 0, 5, 20⟩ [0x31, 0x32, 0x33] 0 = -2147483646 ∧
    startPos ⟨2147483640, 0, 5, 20⟩ [0x31, 0x32, 0x33] 0 ≠ 2147483640 + 10 ∧
    (drawn sampleDecoder ⟨2147483640, 0, 5, 20⟩ [0x31, 0x32, 0x33] 0 samplePainter).head?
      = some ⟨-2147483646, 0, 1, 20⟩ := by
  decide

/-- C6, amended.  With left alignment (`align < 1`), in every rectangle for
which `rect.left + 10` is in the range of `int`, the start position is
`rect.left + 10` and the first rectangle drawn starts there, whatever the
width of the rectangle and the value. -/
theorem left_start (dec : List Nat → QString) (r : QRect) (str : QString) (align : Int)
    (p : QPainter) (h : align < 1) (hr : inInt (r.left + 10)) :
    startPos r str align = r.left + 10 ∧
    (drawn dec r str align p).head? = some ⟨r.left + 10, r.top, 1, r.height⟩ := by
  have e : startPos r str align = r.left + 10 := by
    unfold startPos iadd
    rw [quietZone_left _ _ h, int32_of_inInt hr]
  exact ⟨e, by rw [drawn_head, e]⟩

/-- An instance of `left_start`: the value `123` in a rectangle narrower than
the symbol. -/
theorem left_start_witness :
    (0 : Int) < 1 ∧ inInt ((⟨5, 0, 30, 20⟩ : QRect).left + 10) ∧
    (startPos ⟨5, 0, 30, 20⟩ [0x31, 0x32, 0x33] 0 = (⟨5, 0, 30, 20⟩ : QRect).left + 10 ∧
    (drawn sampleDecoder ⟨5, 0, 30, 20⟩ [0x31, 0x32, 0x33] 0 samplePainter).head?
      = some ⟨(⟨5, 0, 30, 20⟩ : QRect).left + 10, (⟨5, 0, 30, 20⟩ : QRect).top, 1,
          (⟨5, 0, 30, 20⟩ : QRect).height⟩) :=
  ⟨by decide, by decide,
    left_start sampleDecoder ⟨5, 0, 30, 20⟩ [0x31, 0x32, 0x33] 0 samplePainter (by decide)
      (by decide)⟩

/-- C7, as the specification states it, fails: the start position is a 32-bit
`int`; for the empty value in a rectangle 100 wide whose left edge is
2147483640, `(rect.width - L) / 2` is 37, but `rect.left + 37` passes 2^31 - 1
and `startX - rect.left` is not 37. -/
theorem center_start_overflow :
    (farWideRect.width - plannedLength []).tdiv 2 = 37 ∧
    startPos farWideRect [] 1 = -2147483619 ∧
    startPos farWideRect [] 1 - farWideRect.left ≠ 37 := by
  decide

/-- C7, amended.  With centre alignment (`align = 1`), where `rect.width - L`
and the start position computed from it are in the range of `int`, the offset
`startX - rect.left` is `(rect.width - L) / 2`, the division truncating, if that
is at least 10, and 10 otherwise; the first rectangle drawn starts at `startX`;
for the empty value in the rectangle (0, 0, 100, 20), `L` is 25 and `startX` is
37. -/
theorem center_start (dec : List Nat → QString) (r : QRect) (str : QString) (p : QPainter)
    (h1 : inInt (r.width - plannedLength str))
    (h2 : inInt (r.left + (if 10 ≤ (r.width - plannedLength str).tdiv 2
      then (r.width - plannedLength str).tdiv 2 else 10))) :
    startPos r str 1 - r.left
      = (if 10 ≤ (r.width - plannedLength str).tdiv 2
          then (r.width - plannedLength str).tdiv 2 else 10) ∧
    (drawn dec r str 1 p).head? = some ⟨startPos r str 1, r.top, 1, r.height⟩ ∧
    plannedLength [] = 25 ∧ startPos ⟨0, 0, 100, 20⟩ [] 1 = 37 := by
  refine ⟨?_, drawn_head dec r str 1 p, by decide, by decide⟩
  unfold startPos iadd
  rw [quietZone_center _ _ h1, int32_of_inInt h2]
  ring

/-- An instance of `center_start`: the empty value in the rectangle
(0, 0, 100, 20). -/
theorem center_start_witness :
    inInt (sampleRect.width - plannedLength []) ∧
    inInt (sampleRect.left + (if 10 ≤ (sampleRect.width - plannedLength []).tdiv 2
      then (sampleRect.width - plannedLength []).tdiv 2 else 10)) ∧
    (startPos sampleRect [] 1 - sampleRect.left
      = (if 10 ≤ (sampleRect.width - plannedLength []).tdiv 2
          then (sampleRect.width - plannedLength []).tdiv 2 else 10) ∧
    (drawn sampleDecoder sampleRect [] 1 samplePainter).head?
      = some ⟨startPos sampleRect [] 1, sampleRect.top, 1, sampleRect.height⟩ ∧
    plannedLength [] = 25 ∧ startPos ⟨0, 0, 100, 20⟩ [] 1 = 37) :=
  ⟨by decide, by decide,
    center_start sampleDecoder sampleRect [] samplePainter (by decide) (by decide)⟩

/-- C8, as the specification states it, fails: the start position is a 32-bit
`int`; for the empty value in a rectangle 100 wide whose left edge is
2147483640, `rect.left + rect.width - (L + 10)` passes 2^31 - 1, and
`startX + L + 10` is not the right edge `rect.left + rect.width`. -/
theorem right_start_overflow :
    startPos farWideRect [] 2 = -2147483591 ∧
    startPos farWideRect [] 2 + plannedLength [] + 10 ≠ farWideRect.left + farWideRect.width ∧
    startPos farWideRect [] 2 ≠ farWideRect.left + farWideRect.width - (plannedLength [] + 10) := by
  decide

/-- C8, amended.  With right alignment (`align > 1`), where `L + 10`,
`rect.width - (L + 10)` and `rect.left + rect.width - (L + 10)` are in the range
of `int`, the start position is `rect.left + rect.width - (L + 10)`, so that
`startX + L + 10` is the right edge `rect.left + rect.width`; nothing is
clamped: `startX` is left of `rect.left` exactly when `rect.width < L + 10`; the
first rectangle drawn starts at `startX`. -/
theorem right_start (dec : List Nat → QString) (r : QRect) (str : QString) (align : Int)
    (p : QPainter) (h : 1 < align) (h1 : inInt (plannedLength str + 10))
    (h2 : inInt (r.width - (plannedLength str + 10)))
    (h3 : inInt (r.left + (r.width - (plannedLength str + 10)))) :
    startPos r str align = r.left + r.width - (plannedLength str + 10) ∧
    startPos r str align + plannedLength str + 10 = r.left + r.width ∧
    (startPos r str align < r.left ↔ r.width < plannedLength str + 10) ∧
    (drawn dec r str align p).head? = some ⟨startPos r str align, r.top, 1, r.height⟩ := by
  have e : startPos r str align = r.left + r.width - (plannedLength str + 10) := by
    unfold startPos iadd
    rw [quietZone_right _ _ h h1 h2, int32_of_inInt h3]
    ring
  refine ⟨e, ?_, ?_, drawn_head dec r str align p⟩
  · rw [e]; ring
  · rw [e]; constructor <;> intro h' <;> omega

/-- An instance of `right_start`: the value `1` in a rectangle narrower than
the symbol, where the start lies left of the rectangle. -/
theorem right_start_witness :
    (1 : Int) < 2 ∧ inInt (plannedLength [0x31] + 10) ∧
    inInt ((⟨5, 0, 30, 20⟩ : QRect).width - (plannedLength [0x31] + 10)) ∧
    inInt ((⟨5, 0, 30, 20⟩ : QRect).left
      + ((⟨5, 0, 30, 20⟩ : QRect).width - (plannedLength [0x31] + 10))) ∧
    (startPos ⟨5, 0, 30, 20⟩ [0x31] 2
      = (⟨5, 0, 30, 20⟩ : QRect).left + (⟨5, 0, 30, 20⟩ : QRect).width
        - (plannedLength [0x31] + 10) ∧
    startPos ⟨5, 0, 30, 20⟩ [0x31] 2 + plannedLength [0x31] + 10
      = (⟨5, 0, 30, 20⟩ : QRect).left + (⟨5, 0, 30, 20⟩ : QRect).width ∧
    (startPos ⟨5, 0, 30, 20⟩ [0x31] 2 < (⟨5, 0, 30, 20⟩ : QRect).left
      ↔ (⟨5, 0, 30, 20⟩ : QRect).width < plannedLength [0x31] + 10) ∧
    (drawn sampleDecoder ⟨5, 0, 30, 20⟩ [0x31] 2 samplePainter).head?
      = some ⟨startPos ⟨5, 0, 30, 20⟩ [0x31] 2, (⟨5, 0, 30, 20⟩ : QRect).top, 1,
          (⟨5, 0, 30, 20⟩ : QRect).height⟩) :=
  ⟨by decide, by decide, by decide, by decide,
    right_start sampleDecoder ⟨5, 0, 30, 20⟩ [0x31] 2 samplePainter (by decide) (by decide)
      (by decide) (by decide)⟩

/-- C9, as the specification states it, fails: the cursor is a 32-bit `int`;
in a rectangle whose left edge is 2147483635 it passes 2^31 - 1 inside the start
sentinel, and the second rectangle is drawn at -2147483648, not at
`startX + 3`. -/
theorem drawn_sentinels_overflow :
    startPos farRect [] 0 = 2147483645 ∧
    (drawn sampleDecoder farRect [] 0 samplePainter).take 2
      = [⟨2147483645, 0, 1, 20⟩, ⟨-2147483648, 0, 1, 20⟩] ∧
    (drawn sampleDecoder farRect [] 0 samplePainter).take 5
      ≠ starBars farRect (startPos farRect [] 0) := by
  decide

/-- C9, amended.  For every value, in every call whose cursor stays in the
range of `int`, the rectangles drawn begin and end with the bars of `*`: the
first five are at `startX + 0, 3, 5, 8, 11` with widths 1, 1, 2, 2, 1, and the
last five have the same widths at the same offsets from the start of the last
character, which is 13 pixels on for every character drawn before it. -/
theorem drawn_sentinels (dec : List Nat → QString) (r : QRect) (str : QString) (align : Int)
    (p : QPainter) (hc : cursorFits dec r str align) :
    (drawn dec r str align p).take 5 = starBars r (startPos r str align) ∧
    (drawn dec r str align p).drop ((drawn dec r str align p).length - 5)
      = starBars r (startPos r str align
          + 13 * ((resolvedCount (fromUtf8 dec (toCString str)) : Int) + 1)) ∧
    10 ≤ (drawn dec r str align p).length ∧
    pattern 0x2a = [0, 1, 0, 0, 1, 0, 1, 0, 0] := by
  rw [drawn_exact dec r str align p hc, barsFrom_wrapped]
  refine ⟨by simp [starBars], ?_, by simp [starBars], by decide⟩
  rw [← List.append_assoc]
  have hl : ∀ x0 : Int, (starBars r x0).length = 5 := fun _ => rfl
  rw [List.length_append, hl, Nat.add_sub_cancel, List.drop_left]

/-- An instance of `drawn_sentinels`: the value `1~*`, right-aligned. -/
theorem drawn_sentinels_witness :
    cursorFits sampleDecoder sampleRect [0x31, 0x7e, 0x2a] 2 ∧
    ((drawn sampleDecoder sampleRect [0x31, 0x7e, 0x2a] 2 samplePainter).take 5
      = starBars sampleRect (startPos sampleRect [0x31, 0x7e, 0x2a] 2) ∧
    (drawn sampleDecoder sampleRect [0x31, 0x7e, 0x2a] 2 samplePainter).drop
        ((drawn sampleDecoder sampleRect [0x31, 0x7e, 0x2a] 2 samplePainter).length - 5)
      = starBars sampleRect (startPos sampleRect [0x31, 0x7e, 0x2a] 2
          + 13 * ((resolvedCount (fromUtf8 sampleDecoder (toCString [0x31, 0x7e, 0x2a])) : Int)
            + 1)) ∧
    10 ≤ (drawn sampleDecoder sampleRect [0x31, 0x7e, 0x2a] 2 samplePainter).length ∧
    pattern 0x2a = [0, 1, 0, 0, 1, 0, 1, 0, 0]) :=
  ⟨by decide, drawn_sentinels sampleDecoder sampleRect [0x31, 0x7e, 0x2a] 2 samplePainter
    (by decide)⟩

/-- For a value without NUL and without a character from U+0080 to U+00FF,
removing the characters outside the supported set leaves the rectangles of the
8-bit view as they are. -/
theorem barsFrom_latin1_supported (r : QRect) (x0 : Int) {str : QString} (h : plainValue str) :
    barsFrom r x0 ((str.filter (fun c => decide (supported c))).map toLatin1)
      = barsFrom r x0 (str.map toLatin1) := by
  induction str generalizing x0 with
  | nil => rfl
  | cons c cs ih =>
    have hc := h c (List.mem_cons_self c cs)
    have hcs : plainValue cs := fun d hd => h d (List.mem_cons_of_mem c hd)
    by_cases hs : supported c
    · rw [List.filter_cons_of_pos (by simpa using hs), List.map_cons, List.map_cons]
      by_cases hl : resolves (toLatin1 c) = true
      · rw [barsFrom_cons_pos r x0 _ hl, barsFrom_cons_pos r x0 _ hl, ih _ hcs]
      · rw [barsFrom_cons_neg r x0 _ hl, barsFrom_cons_neg r x0 _ hl, ih _ hcs]
    · rw [List.filter_cons_of_neg (by simpa using hs), List.map_cons]
      have hl : ¬resolves (toLatin1 c) = true := by
        by_cases hlt : c < 0x80
        · rw [toLatin1_of_lt hlt]
          exact fun hres => hs ((resolves_iff_supported c hlt hc.1).1 hres)
        · rw [toLatin1_of_gt (by omega), resolves_question]; simp
      rw [barsFrom_cons_neg r x0 _ hl, ih _ hcs]

/-- C10.  The claim is that with left alignment a value draws the rectangles of
the value without its unsupported characters.  The code breaks it at the value
NUL `A`: NUL is not supported and does not resolve, and the value without it is
`A`, which draws the 15 rectangles of `*A*`; but the C string handed to
`sprintf` (line 151) ends at the NUL, the `A` behind it is lost, and the value
NUL `A` draws only the 10 rectangles of the two sentinels. -/
theorem drawn_filter_nul :
    ¬supported 0 ∧ resolves 0 = false ∧
    [0, 0x41].filter (fun c => decide (supported c)) = [0x41] ∧
    [0, 0x41].filter resolves = [0x41] ∧
    toCString [0, 0x41] = [] ∧
    wrapped sampleDecoder [0, 0x41] = [0x2a, 0x2a] ∧
    (drawn sampleDecoder sampleRect [0, 0x41] 0 samplePainter).length = 10 ∧
    (drawn sampleDecoder sampleRect [0x41] 0 samplePainter).length = 15 ∧
    drawn sampleDecoder sampleRect [0, 0x41] 0 samplePainter
      = drawn sampleDecoder sampleRect [] 0 samplePainter ∧
    drawn sampleDecoder sampleRect [0, 0x41] 0 samplePainter
      ≠ drawn sampleDecoder sampleRect [0x41] 0 samplePainter := by
  decide

/-- Apart from the values that the C string of line 151 changes, a skipped
character adds no rectangle and no width, not even the gap between characters:
for every value without NUL and without a character from U+0080 to U+00FF, in
every rectangle, with left alignment the rectangles drawn are those drawn for
the value without the characters outside the supported set, and those drawn
for the value without the characters that do not resolve. -/
theorem drawn_filter (dec : List Nat → QString) (r : QRect) (str : QString) (align : Int)
    (p : QPainter) (h : plainValue str) (hl : align < 1) :
    drawn dec r str align p
      = drawn dec r (str.filter (fun c => decide (supported c))) align p ∧
    drawn dec r str align p = drawn dec r (str.filter resolves) align p := by
  have hs : plainValue (str.filter (fun c => decide (supported c))) :=
    fun c hc => h c (List.mem_filter.1 hc).1
  have hf : plainValue (str.filter resolves) := fun c hc => h c (List.mem_filter.1 hc).1
  have e : ∀ s : QString, startPos r s align = iadd r.left 10 := by
    intro s
    unfold startPos
    rw [quietZone_left _ _ hl]
  have hw : ∀ s t : QString, plainValue s → plainValue t →
      (∀ x0 : Int, barsFrom r x0 (t.map toLatin1) = barsFrom r x0 (s.map toLatin1)) →
      resolvedCount (t.map toLatin1) = resolvedCount (s.map toLatin1) →
      drawn dec r s align p = drawn dec r t align p := by
    intro s t hps hpt hb hn
    rw [drawn_eq, drawn_eq, e s, e t, barsFrom_wrapped, barsFrom_wrapped, fromUtf8_plain dec hps,
      fromUtf8_plain dec hpt, hb, hn]
  have hcount : ∀ t : QString, (∀ x0 : Int,
      barsFrom r x0 (t.map toLatin1) = barsFrom r x0 (str.map toLatin1)) →
      resolvedCount (t.map toLatin1) = resolvedCount (str.map toLatin1) := by
    intro t hb
    have h1 := barsFrom_length r 0 (t.map toLatin1)
    have h2 := barsFrom_length r 0 (str.map toLatin1)
    rw [hb 0] at h1
    omega
  exact ⟨hw _ _ h hs (fun x0 => barsFrom_latin1_supported r x0 h)
      (hcount _ (fun x0 => barsFrom_latin1_supported r x0 h)),
    hw _ _ h hf (fun x0 => barsFrom_latin1_filter r x0 h)
      (hcount _ (fun x0 => barsFrom_latin1_filter r x0 h))⟩

/-- An instance of `drawn_filter`: in `1`, a Chinese character, `~`, `a` the
second and the third character are skipped. -/
theorem drawn_filter_witness :
    plainValue [0x31, 0x4e2d, 0x7e, 0x61] ∧ (0 : Int) < 1 ∧
    [0x31, 0x4e2d, 0x7e, 0x61].filter (fun c => decide (supported c)) = [0x31, 0x61] ∧
    (drawn sampleDecoder farRect [0x31, 0x4e2d, 0x7e, 0x61] 0 samplePainter
      = drawn sampleDecoder farRect
          ([0x31, 0x4e2d, 0x7e, 0x61].filter (fun c => decide (supported c))) 0 samplePainter ∧
    drawn sampleDecoder farRect [0x31, 0x4e2d, 0x7e, 0x61] 0 samplePainter
      = drawn sampleDecoder farRect ([0x31, 0x4e2d, 0x7e, 0x61].filter resolves) 0
          samplePainter) :=
  ⟨by decide, by decide, by decide,
    drawn_filter sampleDecoder farRect [0x31, 0x4e2d, 0x7e, 0x61] 0 samplePainter
      (by decide) (by decide)⟩

/-! ## The claims on the extent of the symbol and on the painter -/

/-- C11.  The claim is that `5 * (s + 2)` rectangles are drawn, `s` being the
number of characters of the value that resolve.  The code breaks it at the
value NUL `A`: one character resolves, the `A`, so 15 rectangles are claimed;
but the C string handed to `sprintf` (line 151) ends at the NUL, the `A` behind
it is lost, and only the 10 rectangles of the two sentinels are drawn. -/
theorem drawn_count_nul :
    resolves 0x41 = true ∧ resolvedCount [0, 0x41] = 1 ∧
    toCString [0, 0x41] = [] ∧
    wrapped sampleDecoder [0, 0x41] = [0x2a, 0x2a] ∧
    (drawn sampleDecoder sampleRect [0, 0x41] 0 samplePainter).length = 10 ∧
    5 * (resolvedCount [0, 0x41] + 2) = 15 ∧
    (drawn sampleDecoder sampleRect [0, 0x41] 0 samplePainter).length
      ≠ 5 * (resolvedCount [0, 0x41] + 2) := by
  decide

/-- Apart from the values that the C string of line 151 changes, the count of
the rectangles is the one claimed: for every value without NUL, without a
character from U+0080 to U+00FF and without U+0131 and U+017F, every rectangle,
alignment and painter, exactly `5 * (s + 2)` rectangles are drawn, `s` being
the number of characters of the value that resolve in the table. -/
theorem drawn_count (dec : List Nat → QString) (r : QRect) (str : QString) (align : Int)
    (p : QPainter) (h : exactValue str) :
    (drawn dec r str align p).length = 5 * (resolvedCount str + 2) := by
  rw [drawn_length, fromUtf8_plain dec (plainValue_of_exactValue h), resolvedCount_latin1 h]

/-- An instance of `drawn_count`: in `1`, a Chinese character, `~`, `a` two
characters resolve and 20 rectangles are drawn. -/
theorem drawn_count_witness :
    exactValue [0x31, 0x4e2d, 0x7e, 0x61] ∧
    resolvedCount [0x31, 0x4e2d, 0x7e, 0x61] = 2 ∧
    (drawn sampleDecoder farRect [0x31, 0x4e2d, 0x7e, 0x61] 0 samplePainter).length
      = 5 * (resolvedCount [0x31, 0x4e2d, 0x7e, 0x61] + 2) :=
  ⟨by decide, by decide,
    drawn_count sampleDecoder farRect [0x31, 0x4e2d, 0x7e, 0x61] 0 samplePainter (by decide)⟩

theorem fromUtf8_of_supported (dec : List Nat → QString) {str : QString}
    (h : ∀ c ∈ str, supported c) : fromUtf8 dec (toCString str) = str :=
  fromUtf8_sevenBit dec (sevenBit_of_supported h)

set_option maxRecDepth 100000 in
/-- C12, as the specification states it, fails: the cursor is a 32-bit `int`;
for the value `A`, left-aligned in a rectangle whose left edge is 2147483635,
`startX` is 2147483645 and `L` is 38, but the cursor passes 2^31 - 1: the last
rectangle ends at -2147483613 and the cursor is left at -2147483612. -/
theorem symbol_extent_overflow :
    (∀ c ∈ [0x41], supported c) ∧
    startPos farRect [0x41] 0 = 2147483645 ∧ plannedLength [0x41] = 38 ∧
    (drawn sampleDecoder farRect [0x41] 0 samplePainter).getLast?.map Bar.right
      = some (-2147483613) ∧
    (drawn sampleDecoder farRect [0x41] 0 samplePainter).getLast?.map Bar.right
      ≠ some (startPos farRect [0x41] 0 + plannedLength [0x41]) ∧
    (render3of9 sampleDecoder farRect [0x41] 0 (some samplePainter)).1 = -2147483612 ∧
    (render3of9 sampleDecoder farRect [0x41] 0 (some samplePainter)).1
      ≠ startPos farRect [0x41] 0 + plannedLength [0x41] + interchange_gap := by
  decide

/-- C12, amended.  When every character of the value is supported, `13 * C + 25`
does not exceed 2^31 - 1 and the cursor stays in the range of `int`, the symbol
drawn takes up the planned length: the first rectangle starts at `startX`, the
last one ends at `startX + L`, and the gap added after the stop sentinel leaves
the cursor at `startX + L + I`. -/
theorem symbol_extent (dec : List Nat → QString) (r : QRect) (str : QString) (align : Int)
    (p : QPainter) (h : ∀ c ∈ str, supported c)
    (hL : 13 * (str.length : Int) + 25 ≤ 2147483647) (hc : cursorFits dec r str align) :
    (drawn dec r str align p).head?.map Bar.x = some (startPos r str align) ∧
    (drawn dec r str align p).getLast?.map Bar.right
      = some (startPos r str align + plannedLength str) ∧
    (render3of9 dec r str align (some p)).1
      = startPos r str align + plannedLength str + interchange_gap := by
  have hn := resolvedCount_of_supported h
  have hf := fromUtf8_of_supported dec h
  refine ⟨by rw [drawn_head]; rfl, ?_, ?_⟩
  · rw [drawn_last dec r str align p hc, hf, hn, plannedLength_exact hL]
    congr 1
    ring
  · rw [render3of9_cursor dec r str align p hc, resolvedCount_wrapped, hf, hn,
      plannedLength_exact hL]
    simp only [interchange_gap, narrow_bar]
    push_cast
    ring

/-- An instance of `symbol_extent`: the value `1a`, right-aligned. -/
theorem symbol_extent_witness :
    (∀ c ∈ [0x31, 0x61], supported c) ∧
    13 * (([0x31, 0x61] : QString).length : Int) + 25 ≤ 2147483647 ∧
    cursorFits sampleDecoder sampleRect [0x31, 0x61] 2 ∧
    ((drawn sampleDecoder sampleRect [0x31, 0x61] 2 samplePainter).head?.map Bar.x
        = some (startPos sampleRect [0x31, 0x61] 2) ∧
      (drawn sampleDecoder sampleRect [0x31, 0x61] 2 samplePainter).getLast?.map Bar.right
        = some (startPos sampleRect [0x31, 0x61] 2 + plannedLength [0x31, 0x61]) ∧
      (render3of9 sampleDecoder sampleRect [0x31, 0x61] 2 (some samplePainter)).1
        = startPos sampleRect [0x31, 0x61] 2 + plannedLength [0x31, 0x61] + interchange_gap) :=
  ⟨by decide, by decide, by decide,
    symbol_extent sampleDecoder sampleRect [0x31, 0x61] 2 samplePainter (by decide) (by decide)
      (by decide)⟩

/-- The start position in a rectangle that has room for the planned symbol and
a quiet zone on each side, and whose edges are values of `int`: the symbol
planned lies 10 pixels inside both edges. -/
theorem startPos_room (r : QRect) (str : QString) (align : Int)
    (hL : 13 * (str.length : Int) + 25 ≤ 2147483647)
    (hw : plannedLength str + 20 ≤ r.width) (hr : rectFits r) :
    r.left + 10 ≤ startPos r str align ∧
    startPos r str align + plannedLength str ≤ r.left + r.width - 10 := by
  have hLe := plannedLength_exact hL
  have hlen : (0 : Int) ≤ (str.length : Int) := Int.ofNat_nonneg _
  obtain ⟨⟨hl1, hl2⟩, ⟨hw1, hw2⟩, ⟨hs1, hs2⟩⟩ := hr
  unfold startPos iadd
  rcases lt_trichotomy align 1 with ha | ha | ha
  · rw [quietZone_left _ _ ha, int32_of_inInt (by unfold inInt; omega)]
    omega
  · subst ha
    have e1 := Int.tdiv_add_tmod (r.width - plannedLength str) 2
    have e2 := Int.tmod_nonneg (2 : Int) (show 0 ≤ r.width - plannedLength str by omega)
    have e3 := Int.tmod_lt_of_pos (r.width - plannedLength str) (show (0 : Int) < 2 by omega)
    rw [quietZone_center _ _ (by unfold inInt; omega)]
    rw [int32_of_inInt (by unfold inInt; split_ifs <;> omega)]
    split_ifs <;> omega
  · rw [quietZone_right _ _ ha (by unfold inInt; omega) (by unfold inInt; omega),
      int32_of_inInt (by unfold inInt; omega)]
    omega

/-- C13, as the specification states it, fails: the positions are 32-bit
`int`; for the empty value, left-aligned in a rectangle 100 wide whose left
edge is 2147483640, `L + 20` is 45, but `rect.left + 10` passes 2^31 - 1 and the
first rectangle is drawn at -2147483646, left of `rect.left + 10`. -/
theorem quiet_zone_overflow :
    plannedLength [] + 20 ≤ farWideRect.width ∧
    (drawn sampleDecoder farWideRect [] 0 samplePainter).head?
      = some ⟨-2147483646, 0, 1, 20⟩ ∧
    ¬(∀ b ∈ drawn sampleDecoder farWideRect [] 0 samplePainter,
      farWideRect.left + 10 ≤ b.x ∧ b.x + b.w ≤ farWideRect.left + farWideRect.width - 10) := by
  decide

/-- C13, amended.  Whenever the rectangle has room for the planned symbol and a
quiet zone on each side, `rect.width >= L + 20`, where `L = 13 * C + 25` does not
exceed 2^31 - 1 and the left edge, the width and the right edge
`rect.left + rect.width` of the rectangle are values of `int`, every rectangle
drawn keeps 10 pixels from both edges, for every value and every alignment.
The decoder of `%s` is taken to yield no more characters that resolve than it
reads bytes. -/
theorem quiet_zone_kept (dec : List Nat → QString) (r : QRect) (str : QString) (align : Int)
    (p : QPainter) (hdec : boundedDecoder dec)
    (hL : 13 * (str.length : Int) + 25 ≤ 2147483647)
    (hw : plannedLength str + 20 ≤ r.width) (hr : rectFits r) :
    ∀ b ∈ drawn dec r str align p,
      r.left + 10 ≤ b.x ∧ b.x + b.w ≤ r.left + r.width - 10 := by
  have hs := startPos_room r str align hL hw hr
  have hLe := plannedLength_exact hL
  have hn := resolvedCount_fromUtf8 hdec str
  have hs2 := hr.2.2.2
  have hc : cursorFits dec r str align := by
    unfold cursorFits
    rw [resolvedCount_wrapped]
    push_cast
    omega
  intro b hb
  rw [drawn_exact dec r str align p hc] at hb
  have hb' := barsFrom_within r _ _ b hb
  rw [resolvedCount_wrapped] at hb'
  push_cast at hb'
  omega

/-- An instance of `quiet_zone_kept`: the value `123`, 64 pixels long, centred
in a rectangle 100 pixels wide. -/
theorem quiet_zone_kept_witness :
    boundedDecoder sampleDecoder ∧
    13 * (([0x31, 0x32, 0x33] : QString).length : Int) + 25 ≤ 2147483647 ∧
    plannedLength [0x31, 0x32, 0x33] + 20 ≤ sampleRect.width ∧
    rectFits sampleRect ∧
    ∀ b ∈ drawn sampleDecoder sampleRect [0x31, 0x32, 0x33] 1 samplePainter,
      sampleRect.left + 10 ≤ b.x ∧ b.x + b.w ≤ sampleRect.left + sampleRect.width - 10 :=
  ⟨fun bytes => resolvedCount_le bytes, by decide, by decide, by decide,
    quiet_zone_kept sampleDecoder sampleRect [0x31, 0x32, 0x33] 1 samplePainter
      (fun bytes => resolvedCount_le bytes) (by decide) (by decide) (by decide)⟩

/-- C14, as the specification states it, fails: the cursor is a 32-bit `int`;
for the empty value, left-aligned in a rectangle whose left edge is
2147483635, `startX` is 2147483645 and the second rectangle is drawn at
-2147483648, not at `startX + 3`; the last one ends at -2147483626, not at
`startX + 25`. -/
theorem empty_value_overflow :
    startPos farRect [] 0 = 2147483645 ∧
    (drawn sampleDecoder farRect [] 0 samplePainter).length = 10 ∧
    (drawn sampleDecoder farRect [] 0 samplePainter).take 2
      = [⟨2147483645, 0, 1, 20⟩, ⟨-2147483648, 0, 1, 20⟩] ∧
    (drawn sampleDecoder farRect [] 0 samplePainter).take 2
      ≠ [⟨startPos farRect [] 0 + 0, 0, 1, 20⟩, ⟨startPos farRect [] 0 + 3, 0, 1, 20⟩] ∧
    (drawn sampleDecoder farRect [] 0 samplePainter).getLast?.map Bar.right
      = some (-2147483626) ∧
    (drawn sampleDecoder farRect [] 0 samplePainter).getLast?.map Bar.right
      ≠ some (startPos farRect [] 0 + plannedLength []) := by
  decide

/-- C14, amended.  In every call whose cursor stays in the range of `int`, the
empty value draws the two sentinels and nothing else: exactly 10 rectangles,
the bars of `*` at `startX + 0, 3, 5, 8, 11` and again at
`startX + 13, 16, 18, 21, 24`, with widths 1, 1, 2, 2, 1 each time, the last one
ending at `startX + 25`, which is `startX + L`.  The number of rectangles is 10
in every call. -/
theorem empty_value (dec : List Nat → QString) (r : QRect) (align : Int) (p : QPainter)
    (hc : cursorFits dec r [] align) :
    drawn dec r [] align p
      = [⟨startPos r [] align + 0, r.top, 1, r.height⟩,
         ⟨startPos r [] align + 3, r.top, 1, r.height⟩,
         ⟨startPos r [] align + 5, r.top, 2, r.height⟩,
         ⟨startPos r [] align + 8, r.top, 2, r.height⟩,
         ⟨startPos r [] align + 11, r.top, 1, r.height⟩,
         ⟨startPos r [] align + 13, r.top, 1, r.height⟩,
         ⟨startPos r [] align + 16, r.top, 1, r.height⟩,
         ⟨startPos r [] align + 18, r.top, 2, r.height⟩,
         ⟨startPos r [] align + 21, r.top, 2, r.height⟩,
         ⟨startPos r [] align + 24, r.top, 1, r.height⟩] ∧
    (drawn dec r [] align p).length = 10 ∧
    plannedLength [] = 25 ∧
    (drawn dec r [] align p).getLast?.map Bar.right
      = some (startPos r [] align + plannedLength []) ∧
    (∀ (r' : QRect) (align' : Int) (p' : QPainter), (drawn dec r' [] align' p').length = 10) := by
  have e : fromUtf8 dec (toCString []) = [] := fromUtf8_sevenBit dec (fun c hc => by simp at hc)
  have hd : drawn dec r [] align p
      = starBars r (startPos r [] align) ++ starBars r (startPos r [] align + 13) := by
    rw [drawn_exact dec r [] align p hc, barsFrom_wrapped, e]
    simp [barsFrom, resolvedCount_nil]
  have hlen : ∀ (r' : QRect) (align' : Int) (p' : QPainter),
      (drawn dec r' [] align' p').length = 10 := by
    intro r' align' p'
    rw [drawn_length, e, resolvedCount_nil]
  refine ⟨?_, hlen r align p, by decide, ?_, hlen⟩
  · rw [hd]
    simp [starBars, add_assoc]
  · rw [drawn_last dec r [] align p hc, e, resolvedCount_nil]
    have : plannedLength [] = 25 := by decide
    rw [this]
    simp

/-- An instance of `empty_value`: the empty value, centred in the rectangle
(0, 0, 100, 20), where `startX` is 37. -/
theorem empty_value_witness :
    cursorFits sampleDecoder sampleRect [] 1 ∧
    (drawn sampleDecoder sampleRect [] 1 samplePainter
      = [⟨startPos sampleRect [] 1 + 0, sampleRect.top, 1, sampleRect.height⟩,
         ⟨startPos sampleRect [] 1 + 3, sampleRect.top, 1, sampleRect.height⟩,
         ⟨startPos sampleRect [] 1 + 5, sampleRect.top, 2, sampleRect.height⟩,
         ⟨startPos sampleRect [] 1 + 8, sampleRect.top, 2, sampleRect.height⟩,
         ⟨startPos sampleRect [] 1 + 11, sampleRect.top, 1, sampleRect.height⟩,
         ⟨startPos sampleRect [] 1 + 13, sampleRect.top, 1, sampleRect.height⟩,
         ⟨startPos sampleRect [] 1 + 16, sampleRect.top, 1, sampleRect.height⟩,
         ⟨startPos sampleRect [] 1 + 18, sampleRect.top, 2, sampleRect.height⟩,
         ⟨startPos sampleRect [] 1 + 21, sampleRect.top, 2, sampleRect.height⟩,
         ⟨startPos sampleRect [] 1 + 24, sampleRect.top, 1, sampleRect.height⟩] ∧
    (drawn sampleDecoder sampleRect [] 1 samplePainter).length = 10 ∧
    plannedLength [] = 25 ∧
    (drawn sampleDecoder sampleRect [] 1 samplePainter).getLast?.map Bar.right
      = some (startPos sampleRect [] 1 + plannedLength []) ∧
    (∀ (r' : QRect) (align' : Int) (p' : QPainter),
      (drawn sampleDecoder r' [] align' p').length = 10)) :=
  ⟨by decide, empty_value sampleDecoder sampleRect 1 samplePainter (by decide)⟩

/-- C15, as the specification states it, fails: the dotless i, U+0131, lies
above 127, but its uppercase is the letter `I`, so `codeIndex` finds row 18. -/
theorem codeIndex_dotless_i :
    127 < 0x131 ∧ ¬supported 0x131 ∧ upper 0x131 = 0x49 ∧ codeIndex 0x131 = 18 ∧
    codeIndex 0x131 ≠ -1 := by
  decide

/-- C15, amended.  `codeIndex` returns -1 for every character outside the
supported set (every punctuation character other than `- . space $ / + % *`,
every control character, every character above 127) with two exceptions, the
dotless i U+0131 and the long s U+017F, which the lookup uppercases to the
letters `I` and `S`. -/
theorem codeIndex_unsupported (c : Nat) (h : ¬supported c) (h1 : c ≠ 0x131)
    (h2 : c ≠ 0x17f) : codeIndex c = -1 := by
  by_cases hc : c < 256
  · exact codeIndex_latin1 c hc h
  · have hu : upper c = c := by apply upper_fixed <;> omega
    rw [codeIndex_eq, hu, toAscii_of_gt (by omega)]
    decide

/-- An instance of `codeIndex_unsupported`: the letter e with acute accent,
U+00E9. -/
theorem codeIndex_unsupported_witness :
    ¬supported 0xe9 ∧ 0xe9 ≠ 0x131 ∧ 0xe9 ≠ 0x17f ∧ codeIndex 0xe9 = -1 :=
  ⟨by decide, by decide, by decide,
    codeIndex_unsupported 0xe9 (by decide) (by decide) (by decide)⟩

/-- C16.  On a painter that is present, every call of `render3of9` makes these
calls and no others: `save`, `setPen` and `setBrush` with the colour of the
pen, one `drawRect` for each rectangle, and `restore`; so the state is saved
once before the first rectangle and restored once after the last, and after
the call the pen, the brush and the stack of saved states are those before
the call. -/
theorem painter_restored (dec : List Nat → QString) (r : QRect) (str : QString) (align : Int)
    (p : QPainter) :
    ∃ q : QPainter,
      (render3of9 dec r str align (some p)).2 = some q ∧
      q.calls = p.calls ++ callsSince p q ∧
      callsSince p q
        = PaintOp.save :: PaintOp.setPen p.pen.color :: PaintOp.setBrush p.pen.color ::
            ((drawn dec r str align p).map Bar.toOp ++ [PaintOp.restore]) ∧
      (callsSince p q).count PaintOp.save = 1 ∧
      (callsSince p q).count PaintOp.restore = 1 ∧
      q.pen = p.pen ∧ q.brush = p.brush ∧ q.saved = p.saved ∧
      q.saved.length = p.saved.length := by
  have hc : ∀ ops : List PaintOp, callsSince p (p.addCalls ops) = ops := by
    intro ops
    simp [callsSince, QPainter.addCalls]
  refine ⟨p.addCalls ([PaintOp.save, PaintOp.setPen p.pen.color, PaintOp.setBrush p.pen.color]
      ++ ((barsFrom r (startPos r str align) (wrapped dec str)).map Bar.reduced).map Bar.toOp
      ++ [PaintOp.restore]), by rw [render3of9_some], ?_, ?_, ?_, ?_, rfl, rfl, rfl, rfl⟩
  · rw [hc]; rfl
  · rw [hc, drawn_eq]; simp
  · rw [hc, List.count_append, List.count_append, count_save_toOp]
    simp [List.count_cons]
  · rw [hc, List.count_append, List.count_append, count_restore_toOp]
    simp [List.count_cons]

/-- C17.  With no painter (a null pointer) `render3of9` makes no painter call
at all, for every rectangle, value and alignment: there is no painter after
the call either; the cursor still runs as it does with a painter present. -/
theorem null_painter (dec : List Nat → QString) (r : QRect) (str : QString) (align : Int) :
    (render3of9 dec r str align none).2 = none ∧
    (∀ top ht : Int, ∀ values : List Int, ∀ space : Bool, ∀ pos : Int,
      (drawBars top ht values space pos none).2 = none) ∧
    ∀ p : QPainter,
      (render3of9 dec r str align none).1 = (render3of9 dec r str align (some p)).1 := by
  have e : render3of9 dec r str align none
      = (int32 (startPos r str align + 13 * (resolvedCount (wrapped dec str) : Int)), none) := by
    simp only [render3of9, Option.map_none']
    rw [drawChars_none _ _ _ _ (int32_startPos r str align)]
    rfl
  refine ⟨by rw [e], ?_, ?_⟩
  · intro top ht values space pos
    exact drawBars_none_painter top ht values space pos
  · intro p
    rw [e, render3of9_some]

set_option maxRecDepth 100000 in
/-- C19, as the specification states it, fails in two ways.  The positions are
32-bit `int`: for the value `~`, which has `L = 38` and one unsupported
character, left-aligned in a rectangle whose left edge is 2147483635 the cursor
passes 2^31 - 1, and the last rectangle ends at -2147483626, not 25 pixels right
of the first one at 2147483645; right-aligned in a rectangle 100 wide whose left
edge is 2147483640 the start position passes 2^31 - 1 and the trailing zone is
not 23.  And for the value NUL `A`, with `L = 51` and one unsupported character,
a span of `51 - 13 = 38` pixels and, right-aligned, a trailing quiet zone of 23
are claimed; but the C string handed to `sprintf` (line 151) ends at the NUL,
the `A` is lost as well, and the two sentinels drawn span 25 pixels and leave a
trailing zone of 36. -/
theorem drawn_span_fails :
    (plannedLength [0x7e] = 38 ∧ unsupportedCount [0x7e] = 1 ∧
      (drawn sampleDecoder farRect [0x7e] 0 samplePainter).head?.map Bar.x
        = some 2147483645 ∧
      (drawn sampleDecoder farRect [0x7e] 0 samplePainter).getLast?.map Bar.right
        = some (-2147483626) ∧
      (drawn sampleDecoder farRect [0x7e] 0 samplePainter).getLast?.map Bar.right
        ≠ some (2147483645 + (38 - 13 * 1)) ∧
      (drawn sampleDecoder farWideRect [0x7e] 2 samplePainter).getLast?.map Bar.right
        = some (-2147483579) ∧
      farWideRect.left + farWideRect.width - (-2147483579) ≠ 10 + 13 * 1) ∧
    (plannedLength [0, 0x41] = 51 ∧ unsupportedCount [0, 0x41] = 1 ∧
      startPos sampleRect [0, 0x41] 2 = 39 ∧
      (drawn sampleDecoder sampleRect [0, 0x41] 2 samplePainter).getLast?.map Bar.right
        = some (39 + 25) ∧
      (drawn sampleDecoder sampleRect [0, 0x41] 2 samplePainter).getLast?.map Bar.right
        ≠ some (39 + (51 - 13 * 1)) ∧
      sampleRect.left + sampleRect.width - (39 + 25) = 36) := by
  decide

/-- C19, amended.  For every value without NUL and without a character from
U+0080 to U+00FF, of length `C` with `k` unsupported characters, where
`13 * C + 25` does not exceed 2^31 - 1 and the cursor stays in the range of
`int`: the start position is computed from `L = 13 * C + 25`, the first
rectangle starts at `startX`, and the last one ends at `startX + L - 13 * k`; so
with right alignment, where `L + 10`, `rect.width - (L + 10)` and
`rect.left + rect.width - (L + 10)` are in the range of `int`, the trailing
quiet zone is `10 + 13 * k` pixels. -/
theorem drawn_span (dec : List Nat → QString) (r : QRect) (str : QString) (align : Int)
    (p : QPainter) (h : plainValue str) (hL : 13 * (str.length : Int) + 25 ≤ 2147483647)
    (hc : cursorFits dec r str align) :
    plannedLength str = 13 * (str.length : Int) + 25 ∧
    startPos r str align = iadd r.left (quietZone r.width (13 * (str.length : Int) + 25) align) ∧
    (drawn dec r str align p).head?.map Bar.x = some (startPos r str align) ∧
    (drawn dec r str align p).getLast?.map Bar.right
      = some (startPos r str align + (plannedLength str - 13 * (unsupportedCount str : Int))) ∧
    (1 < align → inInt (plannedLength str + 10) → inInt (r.width - (plannedLength str + 10)) →
      inInt (r.left + (r.width - (plannedLength str + 10))) →
      r.left + r.width
          - (startPos r str align + (plannedLength str - 13 * (unsupportedCount str : Int)))
        = 10 + 13 * (unsupportedCount str : Int)) := by
  have hLe := plannedLength_exact hL
  refine ⟨hLe, by rw [startPos, hLe], by rw [drawn_head]; rfl, ?_, ?_⟩
  · rw [drawn_last dec r str align p hc, fromUtf8_plain dec h, resolvedCount_plain h, hLe]
    exact congrArg some (by ring)
  · intro ha h1 h2 h3
    unfold startPos iadd
    rw [quietZone_right _ _ ha h1 h2, int32_of_inInt h3]
    ring

set_option maxRecDepth 100000 in
/-- An instance of `drawn_span`: the value `1`, a Chinese character, `a`,
right-aligned; the second character is not supported. -/
theorem drawn_span_witness :
    plainValue [0x31, 0x4e2d, 0x61] ∧
    13 * (([0x31, 0x4e2d, 0x61] : QString).length : Int) + 25 ≤ 2147483647 ∧
    cursorFits sampleDecoder sampleRect [0x31, 0x4e2d, 0x61] 2 ∧
    (1 : Int) < 2 ∧ inInt (plannedLength [0x31, 0x4e2d, 0x61] + 10) ∧
    inInt (sampleRect.width - (plannedLength [0x31, 0x4e2d, 0x61] + 10)) ∧
    inInt (sampleRect.left + (sampleRect.width - (plannedLength [0x31, 0x4e2d, 0x61] + 10))) ∧
    unsupportedCount [0x31, 0x4e2d, 0x61] = 1 ∧
    plannedLength [0x31, 0x4e2d, 0x61] = 13 * (([0x31, 0x4e2d, 0x61] : QString).length : Int) + 25 ∧
    (drawn sampleDecoder sampleRect [0x31, 0x4e2d, 0x61] 2 samplePainter).getLast?.map Bar.right
      = some (startPos sampleRect [0x31, 0x4e2d, 0x61] 2
          + (plannedLength [0x31, 0x4e2d, 0x61]
            - 13 * (unsupportedCount [0x31, 0x4e2d, 0x61] : Int))) ∧
    sampleRect.left + sampleRect.width
        - (startPos sampleRect [0x31, 0x4e2d, 0x61] 2
          + (plannedLength [0x31, 0x4e2d, 0x61]
            - 13 * (unsupportedCount [0x31, 0x4e2d, 0x61] : Int)))
      = 10 + 13 * (unsupportedCount [0x31, 0x4e2d, 0x61] : Int) :=
  ⟨by decide, by decide, by decide, by decide, by decide, by decide, by decide, by decide,
    (drawn_span sampleDecoder sampleRect [0x31, 0x4e2d, 0x61] 2 samplePainter (by decide)
      (by decide) (by decide)).1,
    (drawn_span sampleDecoder sampleRect [0x31, 0x4e2d, 0x61] 2 samplePainter (by decide)
      (by decide) (by decide)).2.2.2.1,
    (drawn_span sampleDecoder sampleRect [0x31, 0x4e2d, 0x61] 2 samplePainter (by decide)
      (by decide) (by decide)).2.2.2.2 (by decide) (by decide) (by decide) (by decide)⟩

/-- C20, as the specification states it, fails: the start position is a 32-bit
`int`; for the empty value in a rectangle 100 wide whose left edge is
2147483640, `(rect.width - L) / 2` is 37, but `rect.left + 37` passes 2^31 - 1:
the leading margin `startX - rect.left` is -4294967259 and the trailing margin
`rect.left + rect.width - (startX + L)` is 4294967334. -/
theorem center_margins_overflow :
    10 < (farWideRect.width - plannedLength []).tdiv 2 ∧
    (∀ c ∈ ([] : QString), supported c) ∧
    startPos farWideRect [] 1 - farWideRect.left = -4294967259 ∧
    farWideRect.left + farWideRect.width - (startPos farWideRect [] 1 + plannedLength [])
      = 4294967334 ∧
    ¬(farWideRect.left + farWideRect.width - (startPos farWideRect [] 1 + plannedLength [])
        = startPos farWideRect [] 1 - farWideRect.left ∨
      farWideRect.left + farWideRect.width - (startPos farWideRect [] 1 + plannedLength [])
        = startPos farWideRect [] 1 - farWideRect.left + 1) := by
  decide

/-- C20, amended.  Centre alignment centres the symbol: whenever
`(rect.width - L) / 2` exceeds 10, and `rect.width - L` and
`rect.left + (rect.width - L) / 2` are in the range of `int`, the leading margin
`startX - rect.left` and the trailing margin `rect.left + rect.width - (startX + L)`
are equal when `rect.width - L` is even, and the trailing margin is one pixel
larger when it is odd. -/
theorem center_margins (r : QRect) (str : QString)
    (h : 10 < (r.width - plannedLength str).tdiv 2)
    (h1 : inInt (r.width - plannedLength str))
    (h2 : inInt (r.left + (r.width - plannedLength str).tdiv 2)) :
    (r.left + r.width - (startPos r str 1 + plannedLength str) = startPos r str 1 - r.left ∨
      r.left + r.width - (startPos r str 1 + plannedLength str)
        = startPos r str 1 - r.left + 1) ∧
    ((r.width - plannedLength str) % 2 = 1 →
      r.left + r.width - (startPos r str 1 + plannedLength str)
        = startPos r str 1 - r.left + 1) ∧
    ((r.width - plannedLength str) % 2 = 0 →
      r.left + r.width - (startPos r str 1 + plannedLength str)
        = startPos r str 1 - r.left) ∧
    startPos r str 1 - r.left = (r.width - plannedLength str).tdiv 2 := by
  have e1 := Int.tdiv_add_tmod (r.width - plannedLength str) 2
  have e3 := Int.tmod_lt_of_pos (r.width - plannedLength str) (show (0 : Int) < 2 by omega)
  have hpos : 0 ≤ r.width - plannedLength str := by
    by_contra hneg
    have hle : (r.width - plannedLength str).tdiv 2 ≤ 0 := by
      have := Int.tdiv_nonneg (show 0 ≤ -(r.width - plannedLength str) by omega)
        (show (0 : Int) ≤ 2 by omega)
      rw [Int.neg_tdiv] at this
      omega
    omega
  have e2 := Int.tmod_nonneg (2 : Int) hpos
  have hs : startPos r str 1 = r.left + (r.width - plannedLength str).tdiv 2 := by
    unfold startPos iadd
    rw [quietZone_center _ _ h1, if_pos (by omega), int32_of_inInt h2]
  rw [hs]
  refine ⟨?_, ?_, ?_, ?_⟩ <;> omega

/-- An instance of `center_margins`: the empty value, 25 pixels long, in a
rectangle 100 pixels wide: margins 37 and 38. -/
theorem center_margins_witness :
    10 < (sampleRect.width - plannedLength []).tdiv 2 ∧
    inInt (sampleRect.width - plannedLength []) ∧
    inInt (sampleRect.left + (sampleRect.width - plannedLength []).tdiv 2) ∧
    ((sampleRect.left + sampleRect.width - (startPos sampleRect [] 1 + plannedLength [])
        = startPos sampleRect [] 1 - sampleRect.left ∨
      sampleRect.left + sampleRect.width - (startPos sampleRect [] 1 + plannedLength [])
        = startPos sampleRect [] 1 - sampleRect.left + 1) ∧
    ((sampleRect.width - plannedLength []) % 2 = 1 →
      sampleRect.left + sampleRect.width - (startPos sampleRect [] 1 + plannedLength [])
        = startPos sampleRect [] 1 - sampleRect.left + 1) ∧
    ((sampleRect.width - plannedLength []) % 2 = 0 →
      sampleRect.left + sampleRect.width - (startPos sampleRect [] 1 + plannedLength [])
        = startPos sampleRect [] 1 - sampleRect.left) ∧
    startPos sampleRect [] 1 - sampleRect.left = (sampleRect.width - plannedLength []).tdiv 2) :=
  ⟨by decide, by decide, by decide, center_margins sampleRect [] (by decide) (by decide)
    (by decide)⟩

/-! ## Translation, separation and injectivity -/

/-- C21, as the specification states it, fails: the cursor is a 32-bit `int`;
for the empty value, left-aligned, the second rectangle lies 3 pixels right of
`startX` in the rectangle (0, 0, 100, 20), but in a rectangle whose left edge
is 2147483635 the cursor passes 2^31 - 1 and the second rectangle lies
4294967293 pixels left of `startX`. -/
theorem drawn_translate_overflow :
    ((drawn sampleDecoder sampleRect [] 0 samplePainter).map
        (fun b => (b.x - startPos sampleRect [] 0, b.w))).take 2 = [(0, 1), (3, 1)] ∧
    ((drawn sampleDecoder farRect [] 0 samplePainter).map
        (fun b => (b.x - startPos farRect [] 0, b.w))).take 2 = [(0, 1), (-4294967293, 1)] ∧
    (drawn sampleDecoder farRect [] 0 samplePainter).map
        (fun b => (b.x - startPos farRect [] 0, b.w))
      ≠ (drawn sampleDecoder sampleRect [] 0 samplePainter).map
        (fun b => (b.x - startPos sampleRect [] 0, b.w)) ∧
    drawn sampleDecoder farRect [] 0 samplePainter
      ≠ (drawn sampleDecoder sampleRect [] 0 samplePainter).map
          (Bar.moved farRect (startPos farRect [] 0 - startPos sampleRect [] 0)) := by
  decide

/-- C21, amended.  Nothing is clipped or scaled: for a fixed value, the number
of the rectangles drawn and their widths are the same in every rectangle with
every alignment, their top and height are those of the rectangle, and the
rectangles drawn in one call are those drawn in any other, moved horizontally
by the change of `startX`, with the positions reduced to the 32 bits of `int`.
Where the cursor stays in the range of `int` in both calls, nothing is
reduced: the rectangles are those of the other call moved by the change of
`startX`, and their offsets from `startX` are the same. -/
theorem drawn_translate (dec : List Nat → QString) (str : QString)
    (r1 : QRect) (align1 : Int) (p1 : QPainter) (r2 : QRect) (align2 : Int) (p2 : QPainter) :
    (drawn dec r2 str align2 p2).length = (drawn dec r1 str align1 p1).length ∧
    (drawn dec r2 str align2 p2).map Bar.w = (drawn dec r1 str align1 p1).map Bar.w ∧
    (∀ b ∈ drawn dec r2 str align2 p2, b.y = r2.top ∧ b.h = r2.height) ∧
    drawn dec r2 str align2 p2
      = ((drawn dec r1 str align1 p1).map
          (Bar.moved r2 (startPos r2 str align2 - startPos r1 str align1))).map Bar.reduced ∧
    (cursorFits dec r1 str align1 → cursorFits dec r2 str align2 →
      drawn dec r2 str align2 p2
        = (drawn dec r1 str align1 p1).map
            (Bar.moved r2 (startPos r2 str align2 - startPos r1 str align1)) ∧
      (drawn dec r2 str align2 p2).map (fun b => (b.x - startPos r2 str align2, b.w))
        = (drawn dec r1 str align1 p1).map (fun b => (b.x - startPos r1 str align1, b.w))) := by
  have hm : barsFrom r2 (startPos r2 str align2) (wrapped dec str)
      = (barsFrom r1 (startPos r1 str align1) (wrapped dec str)).map
          (Bar.moved r2 (startPos r2 str align2 - startPos r1 str align1)) := by
    rw [← barsFrom_moved]
    congr 1
    ring
  have hred : drawn dec r2 str align2 p2
      = ((drawn dec r1 str align1 p1).map
          (Bar.moved r2 (startPos r2 str align2 - startPos r1 str align1))).map Bar.reduced := by
    rw [drawn_eq, drawn_eq, hm, List.map_map, List.map_map, List.map_map]
    apply List.map_congr_left
    intro b _
    simp only [Function.comp, Bar.moved, Bar.reduced, Bar.mk.injEq, and_self, and_true]
    rw [int32_add_left]
  refine ⟨?_, ?_, ?_, hred, ?_⟩
  · rw [hred, List.length_map, List.length_map]
  · rw [hred, List.map_map, List.map_map]
    apply List.map_congr_left
    intro b _
    rfl
  · intro b hb
    rw [drawn_eq, List.mem_map] at hb
    obtain ⟨a, ha, rfl⟩ := hb
    exact barsFrom_top_height r2 _ _ a ha
  · intro h1 h2
    have e : drawn dec r2 str align2 p2
        = (drawn dec r1 str align1 p1).map
            (Bar.moved r2 (startPos r2 str align2 - startPos r1 str align1)) := by
      rw [drawn_exact dec r2 str align2 p2 h2, drawn_exact dec r1 str align1 p1 h1, hm]
    refine ⟨e, ?_⟩
    rw [e, List.map_map]
    apply List.map_congr_left
    intro b _
    simp only [Function.comp, Bar.moved, Prod.mk.injEq, and_true]
    ring

/-- An instance of `drawn_translate`: the value `1a`, centred in the rectangle
(0, 0, 100, 20) and right-aligned in the rectangle (5, 0, 30, 20). -/
theorem drawn_translate_witness :
    cursorFits sampleDecoder sampleRect [0x31, 0x61] 1 ∧
    cursorFits sampleDecoder ⟨5, 0, 30, 20⟩ [0x31, 0x61] 2 ∧
    (drawn sampleDecoder ⟨5, 0, 30, 20⟩ [0x31, 0x61] 2 samplePainter
      = (drawn sampleDecoder sampleRect [0x31, 0x61] 1 samplePainter).map
          (Bar.moved ⟨5, 0, 30, 20⟩
            (startPos ⟨5, 0, 30, 20⟩ [0x31, 0x61] 2 - startPos sampleRect [0x31, 0x61] 1)) ∧
    (drawn sampleDecoder ⟨5, 0, 30, 20⟩ [0x31, 0x61] 2 samplePainter).map
        (fun b => (b.x - startPos ⟨5, 0, 30, 20⟩ [0x31, 0x61] 2, b.w))
      = (drawn sampleDecoder sampleRect [0x31, 0x61] 1 samplePainter).map
        (fun b => (b.x - startPos sampleRect [0x31, 0x61] 1, b.w))) :=
  ⟨by decide, by decide,
    (drawn_translate sampleDecoder [0x31, 0x61] sampleRect 1 samplePainter ⟨5, 0, 30, 20⟩ 2
      samplePainter).2.2.2.2 (by decide) (by decide)⟩

/-- C22, as the specification states it, fails: the cursor is a 32-bit `int`;
for the empty value, left-aligned in a rectangle whose left edge is
2147483635, the first rectangle is drawn at 2147483645 and the second, after
the cursor has passed 2^31 - 1, at -2147483648, left of the first. -/
theorem drawn_separated_overflow :
    (drawn sampleDecoder farRect [] 0 samplePainter).take 2
      = [⟨2147483645, 0, 1, 20⟩, ⟨-2147483648, 0, 1, 20⟩] ∧
    ¬((-2147483648 : Int) ≥ 2147483645 + 1 + 1) ∧
    ¬List.Chain' (fun a b : Bar => b.x ≥ a.x + a.w + 1)
      (drawn sampleDecoder farRect [] 0 samplePainter) ∧
    ¬(∀ pair ∈ (drawn sampleDecoder farRect [] 0 samplePainter).zip
        (drawn sampleDecoder farRect [] 0 samplePainter).tail,
      pair.2.x ≥ pair.1.x + pair.1.w + 1) := by
  have h2 : (drawn sampleDecoder farRect [] 0 samplePainter).take 2
      = [⟨2147483645, 0, 1, 20⟩, ⟨-2147483648, 0, 1, 20⟩] := by decide
  refine ⟨h2, by decide, ?_, by decide⟩
  intro hch
  have h := hch.take 2
  rw [h2, List.chain'_cons] at h
  exact absurd h.1 (by decide)

/-- C22, amended.  In every call whose cursor stays in the range of `int`, the
rectangles are drawn strictly from left to right and never touch or overlap:
any two consecutive rectangles `(x1, w1)` and `(x2, w2)` of the call satisfy
`x2 >= x1 + w1 + 1`, for every value, rectangle and alignment. -/
theorem drawn_separated (dec : List Nat → QString) (r : QRect) (str : QString) (align : Int)
    (p : QPainter) (hc : cursorFits dec r str align) :
    List.Chain' (fun a b => b.x ≥ a.x + a.w + 1) (drawn dec r str align p) ∧
    (∀ pair ∈ (drawn dec r str align p).zip (drawn dec r str align p).tail,
      pair.2.x ≥ pair.1.x + pair.1.w + 1) := by
  have hch : List.Chain' (fun a b : Bar => b.x ≥ a.x + a.w + 1) (drawn dec r str align p) := by
    rw [drawn_exact dec r str align p hc]
    exact barsFrom_chain r _ _
  refine ⟨hch, ?_⟩
  generalize drawn dec r str align p = l at hch
  induction l with
  | nil => intro pair hp; simp at hp
  | cons a l ih =>
    intro pair hp
    cases l with
    | nil => simp at hp
    | cons b l =>
      rw [List.chain'_cons] at hch
      simp only [List.tail_cons, List.zip_cons_cons, List.mem_cons] at hp
      rcases hp with hp | hp
      · subst hp; exact hch.1
      · exact ih hch.2 pair (by simpa using hp)

/-- An instance of `drawn_separated`: the value `1~a`, centred in the rectangle
(0, 0, 100, 20). -/
theorem drawn_separated_witness :
    cursorFits sampleDecoder sampleRect [0x31, 0x7e, 0x61] 1 ∧
    (List.Chain' (fun a b => b.x ≥ a.x + a.w + 1)
      (drawn sampleDecoder sampleRect [0x31, 0x7e, 0x61] 1 samplePainter) ∧
    (∀ pair ∈ (drawn sampleDecoder sampleRect [0x31, 0x7e, 0x61] 1 samplePainter).zip
        (drawn sampleDecoder sampleRect [0x31, 0x7e, 0x61] 1 samplePainter).tail,
      pair.2.x ≥ pair.1.x + pair.1.w + 1)) :=
  ⟨by decide,
    drawn_separated sampleDecoder sampleRect [0x31, 0x7e, 0x61] 1 samplePainter (by decide)⟩

set_option maxRecDepth 100000 in
theorem barShape_injective : ∀ i < 44, ∀ j < 44,
    barShape (_3of9codes.getD i ⟨0, []⟩).values = barShape (_3of9codes.getD j ⟨0, []⟩).values →
      i = j := by
  decide

theorem charBars_shape (r : QRect) (x0 : Int) (values : List Int) :
    (charBars r x0 values).map (fun b => (b.x - x0, b.w)) = barShape values := by
  simp [charBars, barShape]

theorem upper_eq_of_shape {c d : Nat} (hc : resolves c = true) (hd : resolves d = true)
    (h : barShape (pattern c) = barShape (pattern d)) : upper c = upper d := by
  have mc := codeIndex_of_mem ((codeIndex_ne_iff c).1 ((resolves_iff c).1 hc))
  have md := codeIndex_of_mem ((codeIndex_ne_iff d).1 ((resolves_iff d).1 hd))
  have e := barShape_injective (codeIndex c).toNat (by omega) (codeIndex d).toNat (by omega) h
  have e' : codeRow (codeIndex c) = codeRow (codeIndex d) := by
    unfold codeRow
    rw [e]
  rw [← mc.2.2, ← md.2.2, e']

set_option maxRecDepth 100000 in
/-- C23.  The encoding is injective on the supported characters: the 44 rows
of the table have pairwise distinct keys and pairwise distinct patterns, and
two characters that resolve have the same pattern, or give the same bars, only
if they are the same character after uppercasing. -/
theorem encoding_injective :
    ((_3of9codes.take 44).map code3of9.code).Nodup ∧
    ((_3of9codes.take 44).map code3of9.values).Nodup ∧
    (∀ c d : Nat, resolves c = true → resolves d = true → pattern c = pattern d →
      upper c = upper d) ∧
    (∀ c d : Nat, ∀ r : QRect, ∀ x0 : Int, resolves c = true → resolves d = true →
      charBars r x0 (pattern c) = charBars r x0 (pattern d) → upper c = upper d) := by
  refine ⟨by decide, by decide, ?_, ?_⟩
  · intro c d hc hd h
    exact upper_eq_of_shape hc hd (by rw [h])
  · intro c d r x0 hc hd h
    apply upper_eq_of_shape hc hd
    rw [← charBars_shape r x0, ← charBars_shape r x0, h]

/-! ## The engine names of the table builder -/

/-- C18.  On a connection whose driver is `QODBC`, `odbcSanityCheck` accepts
exactly the engine names that `isValidProtocol` accepts when `odbc` is not
allowed: `pgsql`, `psql`, `db2`, `ibase`, `mysql`, `oracle`, `sqlite`, `sqlite2`
and `sybase`; an accepted name is replaced by the name of its Qt driver, for
instance `mysql` by `QMYSQL`; `odbc` and every other name are rejected. -/
theorem odbcSanityCheck_iff (s : QString) :
    ((odbcSanityCheck (lit "QODBC") s).1 = true ↔ isValidProtocol s false = true) ∧
    (isValidProtocol s false = true ↔
      s ∈ [lit "pgsql", lit "psql", lit "db2", lit "ibase", lit "mysql", lit "oracle",
        lit "sqlite", lit "sqlite2", lit "sybase"]) ∧
    ((odbcSanityCheck (lit "QODBC") s).1 = true →
      (odbcSanityCheck (lit "QODBC") s).2 ∈ [lit "QPSQL", lit "QDB2", lit "QIBASE",
        lit "QMYSQL", lit "QOCI", lit "QSQLITE", lit "QSQLITE2", lit "QTDS"]) ∧
    odbcSanityCheck (lit "QODBC") (lit "mysql") = (true, lit "QMYSQL") ∧
    odbcSanityCheck (lit "QODBC") (lit "pgsql") = (true, lit "QPSQL") ∧
    odbcSanityCheck (lit "QODBC") (lit "psql") = (true, lit "QPSQL") ∧
    odbcSanityCheck (lit "QODBC") (lit "db2") = (true, lit "QDB2") ∧
    odbcSanityCheck (lit "QODBC") (lit "ibase") = (true, lit "QIBASE") ∧
    odbcSanityCheck (lit "QODBC") (lit "oracle") = (true, lit "QOCI") ∧
    odbcSanityCheck (lit "QODBC") (lit "sqlite") = (true, lit "QSQLITE") ∧
    odbcSanityCheck (lit "QODBC") (lit "sqlite2") = (true, lit "QSQLITE2") ∧
    odbcSanityCheck (lit "QODBC") (lit "sybase") = (true, lit "QTDS") ∧
    (odbcSanityCheck (lit "QODBC") (lit "odbc")).1 = false ∧
    isValidProtocol (lit "odbc") false = false := by
  have key : ((odbcSanityCheck (lit "QODBC") s).1 = true ↔ isValidProtocol s false = true) ∧
      (isValidProtocol s false = true ↔
        s ∈ [lit "pgsql", lit "psql", lit "db2", lit "ibase", lit "mysql", lit "oracle",
          lit "sqlite", lit "sqlite2", lit "sybase"]) ∧
      ((odbcSanityCheck (lit "QODBC") s).1 = true →
        (odbcSanityCheck (lit "QODBC") s).2 ∈ [lit "QPSQL", lit "QDB2", lit "QIBASE",
          lit "QMYSQL", lit "QOCI", lit "QSQLITE", lit "QSQLITE2", lit "QTDS"]) := by
    by_cases h0 : s = lit "odbc"
    · subst h0; decide
    by_cases h1 : s = lit "pgsql"
    · subst h1; decide
    by_cases h2 : s = lit "psql"
    · subst h2; decide
    by_cases h3 : s = lit "db2"
    · subst h3; decide
    by_cases h4 : s = lit "ibase"
    · subst h4; decide
    by_cases h5 : s = lit "mysql"
    · subst h5; decide
    by_cases h6 : s = lit "oracle"
    · subst h6; decide
    by_cases h7 : s = lit "sqlite"
    · subst h7; decide
    by_cases h8 : s = lit "sqlite2"
    · subst h8; decide
    by_cases h9 : s = lit "sybase"
    · subst h9; decide
    have g0 : ¬lit "odbc" = s := fun e => h0 e.symm
    have g1 : ¬lit "pgsql" = s := fun e => h1 e.symm
    have g2 : ¬lit "psql" = s := fun e => h2 e.symm
    have g3 : ¬lit "db2" = s := fun e => h3 e.symm
    have g4 : ¬lit "ibase" = s := fun e => h4 e.symm
    have g5 : ¬lit "mysql" = s := fun e => h5 e.symm
    have g6 : ¬lit "oracle" = s := fun e => h6 e.symm
    have g7 : ¬lit "sqlite" = s := fun e => h7 e.symm
    have g8 : ¬lit "sqlite2" = s := fun e => h8 e.symm
    have g9 : ¬lit "sybase" = s := fun e => h9 e.symm
    have hv : isValidProtocol s false = false := by
      simp only [isValidProtocol, h0, g1, g2, g3, g4, g5, g6, g7, g8, g9, or_self, if_false]
    have ho : odbcSanityCheck (lit "QODBC") s = (false, s) := by
      simp only [odbcSanityCheck, g0, g1, g2, g3, g4, g5, g6, g7, g8, g9, or_self, if_false,
        if_true]
    rw [hv, ho]
    simp [h1, h2, h3, h4, h5, h6, h7, h8, h9]
  exact ⟨key.1, key.2.1, key.2.2, by decide, by decide, by decide, by decide, by decide,
    by decide, by decide, by decide, by decide, by decide, by decide⟩

/-! ## The string encodings -/

theorem lit_amp : lit "&amp;" = [0x26, 0x61, 0x6d, 0x70, 0x3b] := by decide

theorem lit_quot : lit "&quot;" = [0x26, 0x71, 0x75, 0x6f, 0x74, 0x3b] := by decide

/-- Replacing a single character is replacing it wherever it stands. -/
theorem replaceFrom_char (k : Nat) (after s : QString) :
    replaceFrom [k] after 0 s = s.flatMap (fun c => if c = k then after else [c]) := by
  induction s with
  | nil => rfl
  | cons c cs ih =>
    by_cases h : c = k
    · subst h
      simp [replaceFrom, ih]
    · have h' : ¬k = c := fun e => h e.symm
      simp [replaceFrom, ih, h, h']

theorem encodeString_eq (s : QString) : encodeString s = s.flatMap encodeChar := by
  simp only [encodeString, replaceAll, replaceFrom_char]
  simp only [List.cons_ne_nil, if_false, List.flatMap_assoc]
  congr 1
  funext c
  unfold encodeChar
  by_cases h1 : c = amper
  · subst h1
    rw [if_pos rfl, if_pos rfl, lit_amp]
    simp [quote]
  · rw [if_neg h1, if_neg h1]
    simp

theorem quote_not_mem_encodeString (s : QString) : quote ∉ encodeString s := by
  rw [encodeString_eq]
  intro h
  rw [List.mem_flatMap] at h
  obtain ⟨c, -, hc⟩ := h
  unfold encodeChar at hc
  split_ifs at hc with h1 h2
  · rw [lit_amp] at hc; simp [quote] at hc
  · rw [lit_quot] at hc; simp [quote] at hc
  · simp at hc; exact h2 hc.symm

theorem unquote_amp (rest : QString) :
    replaceFrom (lit "&quot;") [quote] 0 (lit "&amp;" ++ rest)
      = lit "&amp;" ++ replaceFrom (lit "&quot;") [quote] 0 rest := by
  rw [lit_amp, lit_quot]
  simp [replaceFrom]

theorem unquote_quot (rest : QString) :
    replaceFrom (lit "&quot;") [quote] 0 (lit "&quot;" ++ rest)
      = quote :: replaceFrom (lit "&quot;") [quote] 0 rest := by
  rw [lit_quot]
  simp [replaceFrom]

theorem unquote_other {c : Nat} (h : c ≠ amper) (rest : QString) :
    replaceFrom (lit "&quot;") [quote] 0 (c :: rest)
      = c :: replaceFrom (lit "&quot;") [quote] 0 rest := by
  have h' : ¬0x26 = c := fun e => h e.symm
  rw [lit_quot]
  simp [replaceFrom, h']

theorem unquote (s : QString) :
    replaceFrom (lit "&quot;") [quote] 0 (s.flatMap encodeChar) = s.flatMap encodeAmper := by
  induction s with
  | nil => rfl
  | cons c cs ih =>
    rw [List.flatMap_cons, List.flatMap_cons]
    by_cases h1 : c = amper
    · have e1 : encodeChar c = lit "&amp;" := by simp [encodeChar, h1]
      have e2 : encodeAmper c = lit "&amp;" := by simp [encodeAmper, h1]
      rw [e1, e2, unquote_amp, ih]
    · have e2 : encodeAmper c = [c] := by simp [encodeAmper, h1]
      by_cases h2 : c = quote
      · have e1 : encodeChar c = lit "&quot;" := by
          unfold encodeChar
          rw [if_neg h1, if_pos h2]
        rw [e1, e2, unquote_quot, ih, h2]
        rfl
      · have e1 : encodeChar c = [c] := by simp [encodeChar, h1, h2]
        rw [e1, e2, List.singleton_append, unquote_other h1, ih]
        rfl

theorem unamper_amp (rest : QString) :
    replaceFrom (lit "&amp;") [amper] 0 (lit "&amp;" ++ rest)
      = amper :: replaceFrom (lit "&amp;") [amper] 0 rest := by
  rw [lit_amp]
  simp [replaceFrom]

theorem unamper_other {c : Nat} (h : c ≠ amper) (rest : QString) :
    replaceFrom (lit "&amp;") [amper] 0 (c :: rest)
      = c :: replaceFrom (lit "&amp;") [amper] 0 rest := by
  have h' : ¬0x26 = c := fun e => h e.symm
  rw [lit_amp]
  simp [replaceFrom, h']

theorem unamper (s : QString) :
    replaceFrom (lit "&amp;") [amper] 0 (s.flatMap encodeAmper) = s := by
  induction s with
  | nil => rfl
  | cons c cs ih =>
    rw [List.flatMap_cons]
    by_cases h1 : c = amper
    · have e2 : encodeAmper c = lit "&amp;" := by simp [encodeAmper, h1]
      rw [e2, unamper_amp, ih, h1]
    · have e2 : encodeAmper c = [c] := by simp [encodeAmper, h1]
      rw [e2, List.singleton_append, unamper_other h1, ih]

theorem decode_encode (s : QString) : decodeString (encodeString s) = s := by
  rw [encodeString_eq]
  simp only [decodeString, replaceAll]
  rw [if_neg (by decide), if_neg (by decide), unquote, unamper]

/-- C24.  `decodeString` undoes `encodeString`: for every string `s`,
`decodeString (encodeString s) = s`, and `encodeString s` contains no
double quote; so it is for the strings `&amp;` and `&quot;` themselves. -/
theorem decodeString_encodeString (s : QString) :
    decodeString (encodeString s) = s ∧
    quote ∉ encodeString s ∧
    encodeString (lit "&quot;") = lit "&amp;quot;" ∧
    decodeString (lit "&amp;quot;") = lit "&quot;" ∧
    encodeString (lit "&amp;") = lit "&amp;amp;" ∧
    decodeString (lit "&amp;amp;") = lit "&amp;" :=
  ⟨decode_encode s, quote_not_mem_encodeString s, by decide, by decide, by decide, by decide⟩

theorem isSpace_quote : isSpace quote = false := by decide

theorem quoted_ne_nil (it : QString) : quoted it ≠ [] := by simp [quoted]

theorem stripWhiteSpace_quoted (it : QString) : stripWhiteSpace (quoted it) = quoted it := by
  unfold stripWhiteSpace quoted
  simp [List.dropWhile_cons, isSpace_quote, List.reverse_append]

theorem mid_middle (pre t post : QString) :
    mid (pre ++ (t ++ post)) pre.length t.length = t := by
  simp [mid]

theorem quoted_length (it : QString) : (quoted it).length = (encodeString it).length + 2 := by
  simp [quoted]

/-- Inside a quoted string the loop reads up to the closing quote. -/
theorem decomposeLoop_inside (str body rest : QString) (h : quote ∉ body) (pos start : Nat)
    (list : List QString) :
    decomposeLoop str (body ++ quote :: rest) pos true start list
      = decomposeLoop str rest (pos + body.length + 1) false start list := by
  induction body generalizing pos with
  | nil => simp [decomposeLoop]
  | cons c cs ih =>
    have hc : ¬quote = c := fun e => h (by rw [e]; exact List.mem_cons_self _ _)
    have hcs : quote ∉ cs := fun hm => h (List.mem_cons_of_mem _ hm)
    rw [List.cons_append, decomposeLoop]
    simp only [if_true, if_neg hc]
    rw [ih hcs]
    congr 1
    simp only [List.length_cons]
    omega

/-- Outside a string the loop reads one quoted element as a whole. -/
theorem decomposeLoop_quoted (str : QString) (it rest : QString) (pos start : Nat)
    (list : List QString) :
    decomposeLoop str (quoted it ++ rest) pos false start list
      = decomposeLoop str rest (pos + (quoted it).length) false start list := by
  unfold quoted
  rw [List.cons_append, decomposeLoop]
  simp only [Bool.false_eq_true, if_false, if_true, List.append_assoc, List.singleton_append]
  rw [decomposeLoop_inside str _ _ (quote_not_mem_encodeString it)]
  congr 1
  simp only [List.length_cons, List.length_append, List.length_nil]
  omega

theorem decomposeLoop_comma (str rest : QString) (pos start : Nat) (list : List QString) :
    decomposeLoop str (comma :: rest) pos false start list
      = decomposeLoop str rest (pos + 1) false (pos + 1)
          (list ++ [stripWhiteSpace (mid str start (pos - start))]) := by
  rw [decomposeLoop]
  have h : ¬quote = comma := by decide
  simp only [Bool.false_eq_true, if_false, if_neg h, if_true]

/-- The loop and the end of `decomposeList` on a sequence of quoted elements
with commas between them: the pieces are the quoted elements. -/
theorem decompose_quoted (str : QString) (xs : List QString) (x : QString) (pre : QString)
    (list : List QString)
    (h : str = pre ++ (quoted x ++ xs.flatMap (fun y => comma :: quoted y))) :
    lastPiece str
        (decomposeLoop str (quoted x ++ xs.flatMap (fun y => comma :: quoted y))
          pre.length false pre.length list)
      = list ++ (x :: xs).map quoted := by
  induction xs generalizing x pre list with
  | nil =>
    simp only [List.flatMap_nil, List.append_nil] at h ⊢
    have e := decomposeLoop_quoted str x [] pre.length pre.length list
    rw [List.append_nil] at e
    rw [e]
    simp only [decomposeLoop, lastPiece]
    have hl : pre.length < str.length := by
      rw [h, List.length_append, quoted_length]; omega
    rw [if_pos hl]
    have hm : mid str pre.length (str.length - pre.length) = quoted x := by
      have := mid_middle pre (quoted x) []
      rw [List.append_nil] at this
      rw [h, List.length_append, Nat.add_sub_cancel_left]
      exact this
    rw [hm, stripWhiteSpace_quoted]
    rfl
  | cons y ys ih =>
    rw [List.flatMap_cons] at h ⊢
    rw [decomposeLoop_quoted, List.cons_append, decomposeLoop_comma]
    have hm : mid str pre.length (pre.length + (quoted x).length - pre.length) = quoted x := by
      rw [h, Nat.add_sub_cancel_left]
      exact mid_middle pre (quoted x) _
    rw [hm, stripWhiteSpace_quoted]
    have hpre : (pre ++ (quoted x ++ [comma])).length = pre.length + (quoted x).length + 1 := by
      simp only [List.length_append, List.length_cons, List.length_nil]
      omega
    have h' : str = (pre ++ (quoted x ++ [comma]))
        ++ (quoted y ++ ys.flatMap (fun z => comma :: quoted z)) := by
      rw [h]
      simp
    have := ih y (pre ++ (quoted x ++ [comma])) (list ++ [quoted x]) h'
    rw [hpre] at this
    rw [this]
    simp

theorem stringListToString_foldl (acc : QString) (hacc : acc ≠ []) (l : List QString) :
    l.foldl (fun str it =>
      let str := if !str.isEmpty then str ++ [comma] else str
      let str := str ++ [quote]
      let str := str ++ encodeString it
      str ++ [quote]) acc
      = acc ++ l.flatMap (fun y => comma :: quoted y) := by
  induction l generalizing acc with
  | nil => simp
  | cons y ys ih =>
    rw [List.foldl_cons]
    have he : acc.isEmpty = false := by
      cases acc with
      | nil => exact absurd rfl hacc
      | cons a as => rfl
    simp only [he, Bool.not_false, if_true]
    rw [ih _ (by simp)]
    simp [quoted]

theorem stringListToString_cons (x : QString) (xs : List QString) :
    stringListToString (x :: xs) = quoted x ++ xs.flatMap (fun y => comma :: quoted y) := by
  unfold stringListToString
  rw [List.foldl_cons]
  simp only [List.isEmpty_nil, Bool.not_true, Bool.false_eq_true, if_false, List.nil_append]
  rw [stringListToString_foldl _ (by simp)]
  simp [quoted]

theorem unquote_quoted (it : QString) :
    (if quote = constref (quoted it) 0 ∧ quote = constref (quoted it) ((quoted it).length - 1)
      then decodeString (mid (quoted it) 1 ((quoted it).length - 2)) else quoted it) = it := by
  have h0 : constref (quoted it) 0 = quote := by simp [constref, quoted]
  have h1 : constref (quoted it) ((quoted it).length - 1) = quote := by
    simp [constref, quoted, List.getD_eq_getElem?_getD, List.getElem?_append_right]
  have hm : mid (quoted it) 1 ((quoted it).length - 2) = encodeString it := by
    simp [mid, quoted]
  rw [h0, h1, if_pos ⟨rfl, rfl⟩, hm, decode_encode]

/-- C25.  String lists survive their delimited encoding: for every list of
strings, the empty list included, whatever its elements contain,
`stringToStringList (stringListToString l) = l`. -/
theorem stringToStringList_stringListToString (l : List QString) :
    stringToStringList (stringListToString l) = l := by
  cases l with
  | nil => decide
  | cons x xs =>
    have hd : decomposeList (stringListToString (x :: xs)) = (x :: xs).map quoted := by
      have := decompose_quoted (stringListToString (x :: xs)) xs x [] []
        (by rw [stringListToString_cons]; rfl)
      rw [← stringListToString_cons] at this
      simpa [decomposeList, lastPiece] using this
    unfold stringToStringList
    simp only [hd, List.map_map]
    conv_rhs => rw [← List.map_id (x :: xs)]
    apply List.map_congr_left
    intro it _
    exact unquote_quoted it


/-! ## The table build -/

/-- C26 does not hold of the code: `buildTable` returns its initial
`result = false` on every path, the value of `execTableBuild` being dropped.
So it is false also when the statement has been carried out, with the driver
`QPSQL` or `QMYSQL` or through `QODBC` with the engine `mysql`, and `main` then
exits with `EXIT_ERROR_DB_TABLE_BUILD`. -/
theorem buildTable_result :
    (∀ (exec : QString → Bool) (driverName dbServer : QString),
      (buildTable exec driverName dbServer).1 = false ∧
      tableBuildExit exec driverName dbServer = EXIT_ERROR_DB_TABLE_BUILD) ∧
    buildTable sampleDatabase (lit "QPSQL") [] = (false, [true]) ∧
    buildTable sampleDatabase (lit "QMYSQL") [] = (false, [true]) ∧
    buildTable sampleDatabase (lit "QODBC") (lit "mysql") = (false, [true]) ∧
    tableBuildExit sampleDatabase (lit "QPSQL") [] = 4 ∧
    EXIT_ERROR_DB_TABLE_BUILD = 4 ∧ EXIT_SUCCESS = 0 := by
  refine ⟨?_, by decide, by decide, by decide, by decide, rfl, rfl⟩
  intro exec driverName dbServer
  have h : (buildTable exec driverName dbServer).1 = false := by
    unfold buildTable
    simp only [apply_ite Prod.fst, ite_self]
  exact ⟨h, by simp [tableBuildExit, h]⟩

end OpenRPT
